import Mathlib

/-!
Verification development for the YouTube-channel summarizer repository
(`main.py`, `txt_export.py`, `html_export.py`, `telegram_send.py`).

Strings are shallowly embedded as `List Char`; every Python helper that the
claims touch is translated into an executable Lean definition that mirrors
the source line by line.  Python `str.strip`, `str.split`, `re` scans and the
table renderers are reproduced on `List Char`.
-/

set_option maxHeartbeats 1000000
set_option linter.unusedVariables false

abbrev Str := List Char

/-- Python whitespace test (`str.strip`, `\s` in patterns) restricted to the
ASCII whitespace characters, excluding the newline. -/
def wsNoNl (c : Char) : Bool :=
  c == ' ' || c == '\t' || c == '\r' || c.toNat == 11 || c.toNat == 12

/-- Python whitespace test including the newline. -/
def pyWs (c : Char) : Bool := wsNoNl c || c == '\n'

/-- Python `str.strip()` on `List Char`. -/
def pyStrip (s : Str) : Str :=
  ((s.dropWhile pyWs).reverse.dropWhile pyWs).reverse

/-- Python `str.rstrip()` on `List Char`. -/
def pyRstrip (s : Str) : Str :=
  (s.reverse.dropWhile pyWs).reverse

/-- Python `str.strip("|")` on `List Char`: removes every leading and
trailing pipe character. -/
def stripPipes (s : Str) : Str :=
  ((s.dropWhile (· == '|')).reverse.dropWhile (· == '|')).reverse

/-- Python `str.split("|")` on `List Char` (always returns at least one
piece; `""` splits to `[""]`). -/
def splitPipeAux : Str → Str → List Str
  | acc, [] => [acc.reverse]
  | acc, c :: cs =>
    if c = '|' then acc.reverse :: splitPipeAux [] cs
    else splitPipeAux (c :: acc) cs

def splitPipe (s : Str) : List Str := splitPipeAux [] s

/-- Python `str.splitlines()` helper (newline-only input; the sources only
produce `\n`): a trailing newline does not open a final empty line. -/
def splitLinesAux : Str → Str → List Str
  | acc, [] => [acc.reverse]
  | acc, c :: cs =>
    if c = '\n' then
      match cs with
      | [] => [acc.reverse]
      | _ :: _ => acc.reverse :: splitLinesAux [] cs
    else splitLinesAux (c :: acc) cs

/-- Python `str.splitlines()` on `List Char`. -/
def splitLines (s : Str) : List Str :=
  match s with
  | [] => []
  | _ :: _ => splitLinesAux [] s

/-- Display width of one character (`txt_export._disp_width` body): ASCII
counts 1 column, everything else 2. -/
def charW (c : Char) : Nat := if c.toNat < 128 then 1 else 2

/-- `txt_export._disp_width`. -/
def dispWidth (s : Str) : Nat := (s.map charW).sum

/-- `txt_export._pad`: right-pad to the requested display width. -/
def padTo (s : Str) (width : Nat) : Str :=
  s ++ List.replicate (width - dispWidth s) ' '

/-- Loop body of `txt_export._wrap_text`: `acc` is the current line
reversed, `accW` its running display width. -/
def wrapAux (maxW : Nat) : Str → Str → Nat → List Str
  | [], acc, _ => if acc.isEmpty then [] else [acc.reverse]
  | ch :: rest, acc, accW =>
    let chW := charW ch
    if ¬ acc.isEmpty ∧ accW + chW > maxW then
      acc.reverse :: wrapAux maxW rest [ch] chW
    else
      wrapAux maxW rest (ch :: acc) (accW + chW)

/-- `txt_export._wrap_text`. -/
def wrapText (maxW : Nat) (s : Str) : List Str :=
  let s := pyStrip s
  if s.isEmpty then [[]] else wrapAux maxW s [] 0

/-- `_strip_md_emphasis` building block: Python `str.replace(ab, "")` for a
two-character pattern, scanning left to right. -/
def replacePair (a b : Char) : Str → Str
  | [] => []
  | [c] => [c]
  | c :: d :: cs =>
    if c = a ∧ d = b then replacePair a b cs
    else c :: replacePair a b (d :: cs)

/-- `txt_export._strip_md_emphasis` / `html_export._strip_md_emphasis`:
`s.replace("**", "").replace("__", "")`. -/
def stripEmph (s : Str) : Str := replacePair '_' '_' (replacePair '*' '*' s)

/-- `_TABLE_ROW_RE` (`^\s*\|.*\|\s*$`), shared by both exporters: after
stripping surrounding whitespace the line starts and ends with `|` and has
length at least 2. -/
def isTableRow (line : Str) : Bool :=
  let t := pyStrip line
  decide (2 ≤ t.length) && t.head? == some '|' && t.getLast? == some '|'

/-- Body of `_TABLE_SEP_CELL_RE` after surrounding whitespace and the
optional leading colon: two or more dashes followed by an optional
colon. -/
def sepDashes (t1 : Str) : Bool :=
  decide (2 ≤ (t1.takeWhile (· == '-')).length)
    && (t1.dropWhile (· == '-') == [] || t1.dropWhile (· == '-') == [':'])

/-- `_TABLE_SEP_CELL_RE` (`^\s*:?-{2,}:?\s*$`), shared by both exporters. -/
def isSepCell (cell : Str) : Bool :=
  sepDashes (if (pyStrip cell).head? = some ':' then (pyStrip cell).tail
    else pyStrip cell)

/-- `_is_separator_row` (identical in `txt_export.py` and
`html_export.py`). -/
def isSepRow (row : List Str) : Bool :=
  ¬ row.isEmpty && row.all isSepCell

/-- Cell post-processing inside `_parse_table_block`: each piece is
`str.strip`-ped and then emphasis-stripped. -/
def parseCell (c : Str) : Str := stripEmph (pyStrip c)

/-- One line of `_parse_table_block` (identical in both exporters):
`[_strip_md_emphasis(c.strip()) for c in line.strip().strip("|").split("|")]`. -/
def parseRowLine (line : Str) : List Str :=
  (splitPipe (stripPipes (pyStrip line))).map parseCell

/-- `_parse_table_block` (identical in both exporters): consume the leading
run of table-like lines and split each into cells. -/
def parseTableBlock (lines : List Str) : List (List Str) :=
  (lines.takeWhile isTableRow).map parseRowLine

/- ------------------------------------------------------------------ -/
/- main.py: processed-videos ledger and per-item pipeline              -/
/- ------------------------------------------------------------------ -/

/-- State of the `processed_videos.json` store as seen by
`load_processed`/`save_processed`: the file may be missing, unreadable or
syntactically malformed, or parse to JSON whose `video_ids` key holds an
optional list of ids. -/
inductive FileState : Type
  | missing : FileState
  | malformed : FileState
  | parsed : Option (List String) → FileState

/-- `main.load_processed`: a missing file and any load error yield the
empty set; otherwise `set(data.get("video_ids") or [])`.  The Python body
catches every exception, so the embedding is a total function. -/
def loadProcessed : FileState → Finset String
  | .missing => ∅
  | .malformed => ∅
  | .parsed none => ∅
  | .parsed (some l) => l.toFinset

/-- `main.save_processed` when the write succeeds: the store now holds the
listed ids under the `video_ids` key.  Python's `list(video_ids)` has an
unspecified order; this embedding uses the sorted enumeration of the set
(only the set of stored ids matters to any reader). -/
def saveProcessed (ids : Finset String) : FileState :=
  .parsed (some (ids.sort (· ≤ ·)))

/-- `main.save_processed` including the failure branch: the body wraps the
write in a catch-all `except`, so a failed write leaves the previous file
state and no exception escapes (the embedding is total). -/
def saveProcessedChecked (prev : FileState) (ids : Finset String)
    (writeOk : Bool) : FileState :=
  if writeOk then .parsed (some (ids.sort (· ≤ ·))) else prev

/-- Python truthiness of an optional string (`if not transcript`,
`if not summary`): `None` and `""` are falsy. -/
def pyTruthy : Option String → Bool
  | none => false
  | some s => ¬ s.isEmpty

/-- `main.process_video`, with its external collaborators replaced by their
results: `transcript` is what `get_transcript` returned, `summary` what
`summarize_transcript` returned, `sendOk` what `send_video_summary`
returned, and `saveTranscriptOk`/`saveSummaryOk` whether the best-effort
local artifact writes succeeded (the Python wraps both in catch-all
`except` blocks, so they cannot influence control flow and are unused
here).  The function returns the updated `processed` set. -/
def processVideo (videoId : String) (transcript summary : Option String)
    (sendOk saveTranscriptOk saveSummaryOk : Bool)
    (processed : Finset String) : Finset String :=
  if videoId ∈ processed then processed
  else if ¬ pyTruthy transcript then processed
  else if ¬ pyTruthy summary then processed
  else if sendOk then insert videoId processed
  else processed

/-- Outcome of one Python call as seen by the caller's `try`/`except
Exception` block: a value, a caught `Exception`, or an uncatchable
`BaseException` (e.g. `KeyboardInterrupt`) that propagates. -/
inductive PyOutcome (α : Type) : Type
  | ok : α → PyOutcome α
  | exn : PyOutcome α
  | fatal : PyOutcome α

/-- The inner loop of `main.main` channel mode: each video is processed
inside `try`/`except Exception`, so a caught error leaves the ledger as it
was and the loop continues; an uncatchable exception halts with the current
ledger (second component `true`). -/
def runVideos {V : Type} (proc : V → Finset String → PyOutcome (Finset String)) :
    List V → Finset String → Finset String × Bool
  | [], p => (p, false)
  | v :: vs, p =>
    match proc v p with
    | .ok p' => runVideos proc vs p'
    | .exn => runVideos proc vs p
    | .fatal => (p, true)

/-- The per-channel loop of `main.main`: discovery failures are caught and
the loop continues with the next channel (`continue`); an uncatchable
exception halts with the current ledger. -/
def runChannels {C V : Type} (discover : C → PyOutcome (List V))
    (proc : V → Finset String → PyOutcome (Finset String)) :
    List C → Finset String → Finset String × Bool
  | [], p => (p, false)
  | c :: cs, p =>
    match discover c with
    | .ok vids =>
      match runVideos proc vids p with
      | (p', false) => runChannels discover proc cs p'
      | (p', true) => (p', true)
    | .exn => runChannels discover proc cs p
    | .fatal => (p, true)

/-- Channel mode of `main.main` around the loop: the ledger is loaded once
before the `try` block, and `save_processed(processed)` runs in a `finally`
block, so the set reached at termination is persisted whether the loop
finished normally or was aborted.  Returns the final file state and whether
the run was aborted. -/
def mainChannelMode {C V : Type} (discover : C → PyOutcome (List V))
    (proc : V → Finset String → PyOutcome (Finset String))
    (channels : List C) (store : FileState) : FileState × Bool :=
  let processed := loadProcessed store
  let r := runChannels discover proc channels processed
  (saveProcessed r.1, r.2)

/- ------------------------------------------------------------------ -/
/- telegram_send.py                                                    -/
/- ------------------------------------------------------------------ -/

def MAX_MESSAGE_LENGTH : Nat := 4096

/-- The local `escape` helper inside `telegram_send.send_video_summary`:
`s.replace("&","&amp;").replace("<","&lt;").replace(">","&gt;")`.  The
three sequential replaces commute into a per-character map because no
replacement output contains a character replaced later. -/
def tgEscChar (c : Char) : Str :=
  if c = '&' then "&amp;".data
  else if c = '<' then "&lt;".data
  else if c = '>' then "&gt;".data
  else [c]

def tgEscape : Str → Str
  | [] => []
  | c :: cs => tgEscChar c ++ tgEscape cs

/-- Truncation applied by `telegram_send.send_message` before the single
API call: text longer than the limit becomes its first 4092 characters
followed by `"..."`.  The result is exactly the `text` field of the one
`sendMessage` request. -/
def sendTrunc (text : Str) : Str :=
  if MAX_MESSAGE_LENGTH < text.length then
    text.take (MAX_MESSAGE_LENGTH - 4) ++ "...".data
  else text

/-- The `while remaining:` split of `send_video_summary`, fuelled by the
input length (each iteration removes `MAX_MESSAGE_LENGTH ≥ 1`
characters). -/
def tgChunksF : Nat → Str → List Str
  | _, [] => []
  | 0, s => [s]
  | f + 1, s => s.take MAX_MESSAGE_LENGTH :: tgChunksF f (s.drop MAX_MESSAGE_LENGTH)

def tgChunks (s : Str) : List Str := tgChunksF s.length s

/-- Python truthiness of `chunk.strip()` in the chunk loop. -/
def nonBlank (c : Str) : Bool := ¬ (pyStrip c).isEmpty

/-- Header-only first message of the over-length branch of
`send_video_summary`: `f"<b>{title_safe}</b>\n{url}\n\n"`. -/
def tgHeader (title url : Str) : Str :=
  "<b>".data ++ tgEscape title ++ "</b>\n".data ++ url ++ "\n\n".data

/-- Full single-message body of `send_video_summary`:
`f"<b>{title_safe}</b>\n{url}\n\n{summary_safe}"`. -/
def tgBody (title url summary : Str) : Str :=
  tgHeader title url ++ tgEscape summary

/-- The chunk loop of `send_video_summary`: whitespace-only chunks are
skipped without an API call; a failed send returns `False` immediately.
`succ i` tells whether the `i`-th API call of this delivery succeeds; the
second component lists the `text` payloads actually submitted. -/
def sendChunks (succ : Nat → Bool) : Nat → List Str → Bool × List Str
  | _, [] => (true, [])
  | idx, ch :: rest =>
    if nonBlank ch then
      if succ idx then
        let r := sendChunks succ (idx + 1) rest
        (r.1, sendTrunc ch :: r.2)
      else (false, [sendTrunc ch])
    else sendChunks succ idx rest

/-- `telegram_send.send_video_summary`, with the Telegram API abstracted
into the success oracle `succ` (indexed by API-call number within this
delivery).  Returns the reported success and the list of message texts
submitted to the API, in order. -/
def sendVideoSummary (succ : Nat → Bool) (title url summary : Str) :
    Bool × List Str :=
  let body := tgBody title url summary
  if body.length ≤ MAX_MESSAGE_LENGTH then (succ 0, [sendTrunc body])
  else
    let header := tgHeader title url
    if succ 0 then
      let r := sendChunks succ 1 (tgChunks summary)
      (r.1, sendTrunc header :: r.2)
    else (false, [sendTrunc header])

theorem tgChunksF_irrel (f1 : Nat) : ∀ (f2 : Nat) (s : Str),
    s.length ≤ f1 → s.length ≤ f2 → tgChunksF f1 s = tgChunksF f2 s := by
  induction f1 with
  | zero =>
    intro f2 s h1 _
    have : s = [] := List.eq_nil_of_length_eq_zero (Nat.le_zero.mp h1)
    subst this
    cases f2 <;> rfl
  | succ f ih =>
    intro f2 s h1 h2
    cases s with
    | nil => cases f2 <;> rfl
    | cons c cs =>
      cases f2 with
      | zero => exact absurd h2 (by simp)
      | succ f2' =>
        show _ :: _ = _ :: _
        congr 1
        refine ih f2' _ ?_ ?_
        · calc ((c :: cs).drop MAX_MESSAGE_LENGTH).length
              = (c :: cs).length - MAX_MESSAGE_LENGTH := by simp
            _ ≤ f + 1 - MAX_MESSAGE_LENGTH := Nat.sub_le_sub_right h1 _
            _ ≤ f := by simp only [MAX_MESSAGE_LENGTH]; omega
        · calc ((c :: cs).drop MAX_MESSAGE_LENGTH).length
              = (c :: cs).length - MAX_MESSAGE_LENGTH := by simp
            _ ≤ f2' + 1 - MAX_MESSAGE_LENGTH := Nat.sub_le_sub_right h2 _
            _ ≤ f2' := by simp only [MAX_MESSAGE_LENGTH]; omega

@[simp] theorem tgChunks_nil : tgChunks [] = [] := rfl

theorem tgChunks_cons (s : Str) (hs : s ≠ []) :
    tgChunks s = s.take MAX_MESSAGE_LENGTH :: tgChunks (s.drop MAX_MESSAGE_LENGTH) := by
  obtain ⟨c, cs, rfl⟩ := List.exists_cons_of_ne_nil hs
  show tgChunksF ((c :: cs).length) (c :: cs) = _
  rw [show (c :: cs).length = cs.length + 1 from by simp]
  show _ :: _ = _ :: _
  congr 1
  apply tgChunksF_irrel
  · calc ((c :: cs).drop MAX_MESSAGE_LENGTH).length
        = (c :: cs).length - MAX_MESSAGE_LENGTH := by simp
      _ ≤ cs.length := by simp [MAX_MESSAGE_LENGTH]
  · exact le_rfl

theorem tgChunks_flatten (s : Str) : (tgChunks s).flatten = s := by
  generalize hn : s.length = n
  induction n using Nat.strong_induction_on generalizing s with
  | _ n ih =>
    cases s with
    | nil => simp
    | cons c cs =>
      rw [tgChunks_cons _ (by simp)]
      have hlt : ((c :: cs).drop MAX_MESSAGE_LENGTH).length < n := by
        subst hn; simp only [List.length_drop, List.length_cons, MAX_MESSAGE_LENGTH]; omega
      rw [List.flatten_cons, ih _ hlt _ rfl, List.take_append_drop]

theorem tgChunks_length_le (s : Str) :
    ∀ c ∈ tgChunks s, c.length ≤ MAX_MESSAGE_LENGTH := by
  generalize hn : s.length = n
  induction n using Nat.strong_induction_on generalizing s with
  | _ n ih =>
    cases s with
    | nil => simp
    | cons c cs =>
      rw [tgChunks_cons _ (by simp)]
      intro x hx
      rcases List.mem_cons.mp hx with h | h
      · subst h; simp
      · have hlt : ((c :: cs).drop MAX_MESSAGE_LENGTH).length < n := by
          subst hn; simp only [List.length_drop, List.length_cons, MAX_MESSAGE_LENGTH]; omega
        exact ih _ hlt _ rfl x h

theorem sendTrunc_of_le {text : Str} (h : text.length ≤ MAX_MESSAGE_LENGTH) :
    sendTrunc text = text := by
  simp [sendTrunc, Nat.not_lt.mpr h]

theorem sendChunks_ok (succ : Nat → Bool) (h : ∀ i, succ i = true) :
    ∀ (chunks : List Str) (idx : Nat),
      sendChunks succ idx chunks =
        (true, (chunks.filter nonBlank).map sendTrunc) := by
  intro chunks
  induction chunks with
  | nil => intro idx; rfl
  | cons ch rest ih =>
    intro idx
    by_cases hb : nonBlank ch
    · simp [sendChunks, hb, h idx, ih (idx + 1)]
    · simp [sendChunks, hb, ih idx]

theorem sendChunks_fst_true (succ : Nat → Bool) :
    ∀ (chunks : List Str) (idx : Nat),
      (sendChunks succ idx chunks).1 = true →
      ∀ k < (chunks.filter nonBlank).length, succ (idx + k) = true := by
  intro chunks
  induction chunks with
  | nil => intro idx _ k hk; simp at hk
  | cons ch rest ih =>
    intro idx hfst k hk
    by_cases hb : nonBlank ch
    · simp only [sendChunks, hb, if_true] at hfst
      by_cases hs : succ idx
      · simp only [hs, if_true] at hfst
        rw [List.filter_cons_of_pos hb] at hk
        cases k with
        | zero => simpa using hs
        | succ k' =>
          have := ih (idx + 1) hfst k' (by simpa using Nat.lt_of_succ_lt_succ hk)
          simpa [Nat.add_comm, Nat.add_assoc, Nat.add_left_comm] using this
      · simp [hs] at hfst
    · simp only [sendChunks, hb, if_false] at hfst
      rw [List.filter_cons_of_neg hb] at hk
      exact ih idx hfst k hk

/-- The claim C1 theorem is below with the other per-claim theorems. -/
theorem processVideo_unfold (videoId : String) (t s : Option String)
    (ok w1 w2 : Bool) (P : Finset String) :
    processVideo videoId t s ok w1 w2 P =
      if videoId ∉ P ∧ pyTruthy t ∧ pyTruthy s ∧ ok then
        insert videoId P else P := by
  unfold processVideo
  by_cases h1 : videoId ∈ P <;> by_cases h2 : pyTruthy t <;>
    by_cases h3 : pyTruthy s <;> cases ok <;> simp [h1, h2, h3]

theorem tgEscape_of_clean (s : Str)
    (h : ∀ c ∈ s, c ≠ '&' ∧ c ≠ '<' ∧ c ≠ '>') : tgEscape s = s := by
  induction s with
  | nil => rfl
  | cons c cs ih =>
    obtain ⟨h1, h2, h3⟩ := h c (by simp)
    simp only [tgEscape, tgEscChar, h1, h2, h3, if_false]
    rw [ih fun x hx => h x (by simp [hx])]
    rfl

/- ------------------------------------------------------------------ -/
/- Claims C1, C6, C7, C8, C9, C10                                      -/
/- ------------------------------------------------------------------ -/

/-- C1: in `main.process_video` a video id is added to the processed set
only after `send_video_summary` reports success.  If the item is already
processed, the transcript is absent/empty, the summary is absent/empty, or
the send fails, the set is returned unchanged; the outcomes of the
best-effort local artifact writes never influence the result. -/
theorem claim_C1 (videoId : String) (t s : Option String) (ok w1 w2 : Bool)
    (P : Finset String) :
    (videoId ∈ P → processVideo videoId t s ok w1 w2 P = P) ∧
    (pyTruthy t = false → processVideo videoId t s ok w1 w2 P = P) ∧
    (pyTruthy s = false → processVideo videoId t s ok w1 w2 P = P) ∧
    (ok = false → processVideo videoId t s ok w1 w2 P = P) ∧
    (∀ w1' w2', processVideo videoId t s ok w1 w2 P =
      processVideo videoId t s ok w1' w2' P) ∧
    (videoId ∈ processVideo videoId t s ok w1 w2 P →
      videoId ∈ P ∨ (pyTruthy t = true ∧ pyTruthy s = true ∧ ok = true)) := by
  refine ⟨?_, ?_, ?_, ?_, ?_, ?_⟩
  · intro h; simp [processVideo_unfold, h]
  · intro h; simp [processVideo_unfold, h]
  · intro h; simp [processVideo_unfold, h]
  · intro h; simp [processVideo_unfold, h]
  · intro w1' w2'; simp [processVideo_unfold]
  · rw [processVideo_unfold]
    split_ifs with h
    · intro _; exact Or.inr ⟨h.2.1, h.2.2.1, h.2.2.2⟩
    · intro hmem; exact Or.inl hmem

/-- Witness for C1: at the spec's scenario item, a failed delivery leaves
the empty ledger unchanged. -/
theorem claim_C1_witness :
    (false = false) ∧
    processVideo "abc12345678" (some "x") (some "y") false true true ∅ = ∅ :=
  ⟨rfl, (claim_C1 "abc12345678" (some "x") (some "y") false true true ∅).2.2.2.1 rfl⟩

/-- C7: saving a set of ids with `save_processed` and reading the store
back with `load_processed` recovers exactly the same set, for every set
including the empty one. -/
theorem claim_C7 (S : Finset String) : loadProcessed (saveProcessed S) = S := by
  simp [loadProcessed, saveProcessed, Finset.sort_toFinset]

/-- C8: `load_processed` on a missing store, an unreadable/malformed store,
or a store without usable `video_ids` returns the empty set (the Python
body catches every exception, hence the total embedding), and a failed
`save_processed` write is swallowed, leaving the previous file state. -/
theorem claim_C8 :
    loadProcessed .missing = ∅ ∧
    loadProcessed .malformed = ∅ ∧
    loadProcessed (.parsed none) = ∅ ∧
    ∀ (prev : FileState) (S : Finset String),
      saveProcessedChecked prev S false = prev :=
  ⟨rfl, rfl, rfl, fun _ _ => rfl⟩

/-- C9: in channel mode a discovery failure for one channel is caught and
the run proceeds exactly as if that channel were absent, and the ledger
written by the `finally` finalizer always reloads to the in-memory
processed set reached when the loop terminated — whether it terminated
normally or was aborted partway. -/
theorem claim_C9 {C V : Type} (discover : C → PyOutcome (List V))
    (proc : V → Finset String → PyOutcome (Finset String)) (c : C)
    (hc : discover c = .exn) :
    (∀ (pre post : List C) (p : Finset String),
      runChannels discover proc (pre ++ c :: post) p =
        runChannels discover proc (pre ++ post) p) ∧
    (∀ (channels : List C) (store : FileState),
      loadProcessed (mainChannelMode discover proc channels store).1 =
        (runChannels discover proc channels (loadProcessed store)).1) := by
  constructor
  · intro pre post p
    induction pre generalizing p with
    | nil => simp [runChannels, hc]
    | cons c0 pre ih =>
      simp only [List.cons_append, runChannels]
      cases discover c0 with
      | ok vids =>
        rcases hr : runVideos proc vids p with ⟨p', fat⟩
        cases fat <;> simp [ih]
      | exn => exact ih p
      | fatal => rfl
  · intro channels store
    simp [mainChannelMode, loadProcessed, saveProcessed, Finset.sort_toFinset]

/-- Witness for C9 at a concrete two-channel run whose first channel's
discovery raises. -/
theorem claim_C9_witness :
    ((fun _ : Nat => (PyOutcome.exn : PyOutcome (List Nat))) 0 = PyOutcome.exn) ∧
    runChannels (fun _ : Nat => (PyOutcome.exn : PyOutcome (List Nat)))
        (fun _ p => .ok p) ([] ++ 0 :: [1]) (∅ : Finset String) =
      runChannels (fun _ : Nat => (PyOutcome.exn : PyOutcome (List Nat)))
        (fun _ p => .ok p) ([] ++ [1]) ∅ :=
  ⟨rfl, (claim_C9 (fun _ : Nat => (PyOutcome.exn : PyOutcome (List Nat)))
      (fun _ p => .ok p) 0 rfl).1 [] [1] ∅⟩

/-- C10: the one message submitted by `send_message` never exceeds 4096
characters: text within the limit is passed unchanged, and longer text is
cut to its first 4092 characters plus `"..."`. -/
theorem claim_C10 (text : Str) :
    (sendTrunc text).length ≤ MAX_MESSAGE_LENGTH ∧
    (text.length ≤ MAX_MESSAGE_LENGTH → sendTrunc text = text) ∧
    (MAX_MESSAGE_LENGTH < text.length →
      sendTrunc text = text.take (MAX_MESSAGE_LENGTH - 4) ++ "...".data) := by
  refine ⟨?_, fun h => sendTrunc_of_le h, fun h => by simp [sendTrunc, h]⟩
  by_cases h : MAX_MESSAGE_LENGTH < text.length
  · simp only [sendTrunc, if_pos h]
    rw [List.length_append, List.length_take]
    have h3 : ("...".data).length = 3 := rfl
    rw [h3]
    simp only [MAX_MESSAGE_LENGTH] at h ⊢
    omega
  · have hle : text.length ≤ MAX_MESSAGE_LENGTH := Nat.le_of_not_lt h
    rw [sendTrunc_of_le hle]
    exact hle

/-- Witness for C10 at a short and an over-length concrete text. -/
theorem claim_C10_witness :
    sendTrunc ['a'] = ['a'] ∧
    sendTrunc (List.replicate 4100 'x') =
      (List.replicate 4100 'x').take (MAX_MESSAGE_LENGTH - 4) ++ "...".data :=
  ⟨(claim_C10 ['a']).2.1 (by
      simp only [MAX_MESSAGE_LENGTH, List.length_cons, List.length_nil]; omega),
   (claim_C10 (List.replicate 4100 'x')).2.2 (by
      simp only [MAX_MESSAGE_LENGTH, List.length_replicate]; omega)⟩

/-- C6 (amended): when the assembled body exceeds 4096 characters,
`send_video_summary` first sends a header-only message (bold title, url,
blank line — with no lead of the summary), then the raw summary in order
in 4096-character chunks, skipping whitespace-only chunks; chunk payloads
are never over-length; concatenating the payloads after the header
reproduces the summary whenever no chunk is whitespace-only; and the call
reports success only if the header send and every attempted chunk send
succeeded. -/
theorem claim_C6_amended (succ : Nat → Bool) (title url summary : Str)
    (hover : MAX_MESSAGE_LENGTH < (tgBody title url summary).length)
    (hheader : (tgHeader title url).length ≤ MAX_MESSAGE_LENGTH) :
    ((sendVideoSummary succ title url summary).2.head? =
      some (tgHeader title url)) ∧
    ((∀ i, succ i = true) →
      sendVideoSummary succ title url summary =
        (true, tgHeader title url :: (tgChunks summary).filter nonBlank)) ∧
    ((∀ i, succ i = true) → (∀ c ∈ tgChunks summary, nonBlank c = true) →
      ((sendVideoSummary succ title url summary).2.tail).flatten = summary) ∧
    ((sendVideoSummary succ title url summary).1 = true → succ 0 = true) ∧
    ((sendVideoSummary succ title url summary).1 = true →
      ∀ k < ((tgChunks summary).filter nonBlank).length, succ (1 + k) = true) ∧
    (∀ c ∈ tgChunks summary, c.length ≤ MAX_MESSAGE_LENGTH) := by
  have hbody : ¬ (tgBody title url summary).length ≤ MAX_MESSAGE_LENGTH :=
    Nat.not_le.mpr hover
  have hmapid : ((tgChunks summary).filter nonBlank).map sendTrunc =
      (tgChunks summary).filter nonBlank := by
    have : ∀ c ∈ (tgChunks summary).filter nonBlank, sendTrunc c = c := fun c hcmem =>
      sendTrunc_of_le (tgChunks_length_le summary c (List.mem_of_mem_filter hcmem))
    calc ((tgChunks summary).filter nonBlank).map sendTrunc
        = ((tgChunks summary).filter nonBlank).map id := List.map_congr_left this
      _ = _ := List.map_id _
  have hfull : (∀ i, succ i = true) →
      sendVideoSummary succ title url summary =
        (true, tgHeader title url :: (tgChunks summary).filter nonBlank) := by
    intro hall
    simp only [sendVideoSummary, hbody, if_false, hall 0, if_true,
      sendChunks_ok succ hall, sendTrunc_of_le hheader, hmapid]
  refine ⟨?_, hfull, ?_, ?_, ?_, tgChunks_length_le summary⟩
  · by_cases hs : succ 0 = true
    · simp [sendVideoSummary, hbody, hs, sendTrunc_of_le hheader]
    · simp [sendVideoSummary, hbody, Bool.of_not_eq_true hs,
        sendTrunc_of_le hheader]
  · intro hall hnb
    rw [hfull hall]
    simp only [List.tail_cons]
    rw [List.filter_eq_self.mpr hnb, tgChunks_flatten]
  · intro hok
    by_cases hs : succ 0 = true
    · exact hs
    · simp [sendVideoSummary, hbody, Bool.of_not_eq_true hs] at hok
  · intro hok k hk
    by_cases hs : succ 0 = true
    · simp only [sendVideoSummary, hbody, if_false, hs, if_true] at hok
      exact sendChunks_fst_true succ (tgChunks summary) 1 hok k hk
    · simp [sendVideoSummary, hbody, Bool.of_not_eq_true hs] at hok

theorem c6_header_len : (tgHeader ['T'] ['u']).length = 12 := by decide

theorem c6_hover :
    MAX_MESSAGE_LENGTH <
      (tgBody ['T'] ['u'] (List.replicate 4085 'x')).length := by
  have hesc : tgEscape (List.replicate 4085 'x') = List.replicate 4085 'x' :=
    tgEscape_of_clean _ (by
      intro c hcm
      rw [List.eq_of_mem_replicate hcm]
      refine ⟨by decide, by decide, by decide⟩)
  simp only [tgBody, List.length_append, hesc, c6_header_len,
    List.length_replicate, MAX_MESSAGE_LENGTH]
  omega

theorem c6_hheader : (tgHeader ['T'] ['u']).length ≤ MAX_MESSAGE_LENGTH := by
  rw [c6_header_len]; simp only [MAX_MESSAGE_LENGTH]; omega

theorem c6_head_concrete :
    (sendVideoSummary (fun _ => true) ['T'] ['u']
        (List.replicate 4085 'x')).2.head? = some (tgHeader ['T'] ['u']) := by
  simp only [sendVideoSummary, if_neg (Nat.not_le.mpr c6_hover), if_true,
    eq_self_iff_true, List.head?_cons, sendTrunc_of_le c6_hheader]

/-- Witness for C6 (amended) at a concrete over-length delivery. -/
theorem claim_C6_amended_witness :
    (sendVideoSummary (fun _ => true) ['T'] ['u']
        (List.replicate 4085 'x')).2.head? = some (tgHeader ['T'] ['u']) :=
  (claim_C6_amended (fun _ => true) ['T'] ['u']
      (List.replicate 4085 'x') c6_hover c6_hheader).1

/-- Counterexample for C6 as stated: for an over-length delivery the first
message is exactly the header — it contains no "truncated lead" of the
summary, i.e. it does not equal header ++ (any nonempty prefix of the
summary). -/
theorem claim_C6_cex :
    (sendVideoSummary (fun _ => true) ['T'] ['u']
        (List.replicate 4085 'x')).2.head? = some (tgHeader ['T'] ['u']) ∧
    ¬ ∃ k, 0 < k ∧
      (sendVideoSummary (fun _ => true) ['T'] ['u']
          (List.replicate 4085 'x')).2.head? =
        some (tgHeader ['T'] ['u'] ++ (List.replicate 4085 'x').take k) := by
  refine ⟨c6_head_concrete, ?_⟩
  rintro ⟨k, hk, heq⟩
  rw [c6_head_concrete] at heq
  have := Option.some.inj heq
  have hlen := congrArg List.length this
  simp only [List.length_append, List.length_take, List.length_replicate] at hlen
  omega

/- ------------------------------------------------------------------ -/
/- html_export.py: _inline_format                                      -/
/- ------------------------------------------------------------------ -/

theorem dropWhile_len_le {α : Type} (p : α → Bool) (l : List α) :
    (l.dropWhile p).length ≤ l.length := by
  induction l with
  | nil => simp
  | cons c cs ih =>
    rw [List.dropWhile_cons]
    split_ifs
    · exact Nat.le_trans ih (by simp)
    · exact le_rfl

/-- Tail of the `<br\s*/?>` match after `br` and the whitespace run: either
`>` or `/` directly followed by `>`. -/
def brClose : Str → Option Str
  | [] => none
  | c :: cs =>
    if c = '>' then some cs
    else if c = '/' ∧ cs.head? = some '>' then some cs.tail
    else none

/-- One leftmost-match attempt of `re.sub(r"<br\s*/?>", ...)` after the
leading `<` was seen: case-insensitive `br`, greedy `\s*`, optional `/`,
then `>`; returns the text after the match. -/
def brMatch : Str → Option Str
  | b :: r :: rest =>
    if (b = 'b' ∨ b = 'B') ∧ (r = 'r' ∨ r = 'R') then
      brClose (rest.dropWhile pyWs)
    else none
  | _ => none

theorem brClose_length {l rest : Str} (h : brClose l = some rest) :
    rest.length < l.length := by
  match l with
  | [] => exact absurd h (by simp [brClose])
  | c :: cs =>
    rw [brClose] at h
    split_ifs at h with h1 h2
    · cases Option.some.inj h
      simp
    · cases Option.some.inj h
      have : cs.tail.length ≤ cs.length := by
        cases cs <;> simp
      simp only [List.length_cons]
      omega

theorem brMatch_length {cs rest : Str} (h : brMatch cs = some rest) :
    rest.length < cs.length := by
  match cs with
  | [] => exact absurd h (by simp [brMatch])
  | [b] => exact absurd h (by simp [brMatch])
  | b :: r :: rest0 =>
    rw [brMatch] at h
    split_ifs at h with hbr
    · have h1 := brClose_length h
      have h2 : (rest0.dropWhile pyWs).length ≤ rest0.length :=
        dropWhile_len_le _ _
      simp only [List.length_cons]
      omega

/-- The `re.sub(r"<br\s*/?>", "\n", s, flags=IGNORECASE)` scan at the top
of `_inline_format`, fuelled by the input length (each step consumes at
least one character). -/
def brSubF : Nat → Str → Str
  | _, [] => []
  | 0, s => s
  | f + 1, c :: cs =>
    if c = '<' then
      match brMatch cs with
      | some rest => '\n' :: brSubF f rest
      | none => '<' :: brSubF f cs
    else c :: brSubF f cs

def brSub (s : Str) : Str := brSubF s.length s

theorem brSubF_succ_cons (f : Nat) (c : Char) (cs : Str) :
    brSubF (f + 1) (c :: cs) =
      if c = '<' then
        match brMatch cs with
        | some rest => '\n' :: brSubF f rest
        | none => '<' :: brSubF f cs
      else c :: brSubF f cs := rfl

theorem brSubF_irrel (f1 : Nat) : ∀ (f2 : Nat) (s : Str),
    s.length ≤ f1 → s.length ≤ f2 → brSubF f1 s = brSubF f2 s := by
  induction f1 with
  | zero =>
    intro f2 s h1 _
    have : s = [] := List.eq_nil_of_length_eq_zero (Nat.le_zero.mp h1)
    subst this
    cases f2 <;> rfl
  | succ f ih =>
    intro f2 s h1 h2
    cases s with
    | nil => cases f2 <;> rfl
    | cons c cs =>
      cases f2 with
      | zero => exact absurd h2 (by simp)
      | succ f2' =>
        rw [brSubF_succ_cons, brSubF_succ_cons]
        simp only [List.length_cons] at h1 h2
        by_cases hc : c = '<'
        · rw [if_pos hc, if_pos hc]
          cases hm : brMatch cs with
          | some rest =>
            have hr := brMatch_length hm
            show '\n' :: brSubF f rest = '\n' :: brSubF f2' rest
            rw [ih f2' rest (by omega) (by omega)]
          | none =>
            show '<' :: brSubF f cs = '<' :: brSubF f2' cs
            rw [ih f2' cs (by omega) (by omega)]
        · rw [if_neg hc, if_neg hc]
          rw [ih f2' cs (by omega) (by omega)]

theorem brSub_nil : brSub [] = [] := rfl

theorem brSub_match {cs rest : Str} (h : brMatch cs = some rest) :
    brSub ('<' :: cs) = '\n' :: brSub rest := by
  show brSubF (cs.length + 1) ('<' :: cs) = _
  rw [brSubF_succ_cons, if_pos rfl, h]
  show '\n' :: brSubF cs.length rest = '\n' :: brSub rest
  rw [brSubF_irrel cs.length rest.length rest
    (Nat.le_of_lt (brMatch_length h)) le_rfl]
  rfl

theorem brSub_nomatch {cs : Str} (h : brMatch cs = none) :
    brSub ('<' :: cs) = '<' :: brSub cs := by
  show brSubF (cs.length + 1) ('<' :: cs) = _
  rw [brSubF_succ_cons, if_pos rfl, h]
  rfl

theorem brSub_cons {c : Char} {cs : Str} (h : c ≠ '<') :
    brSub (c :: cs) = c :: brSub cs := by
  show brSubF (cs.length + 1) (c :: cs) = _
  rw [brSubF_succ_cons, if_neg h]
  rfl

/-- `html.escape(s, quote=False)` on one character. -/
def escChar (c : Char) : Str :=
  if c = '&' then "&amp;".data
  else if c = '<' then "&lt;".data
  else if c = '>' then "&gt;".data
  else [c]

/-- `html.escape(s, quote=False)` (the three sequential `str.replace`
calls fuse into a per-character map because no replacement output contains
a character replaced later). -/
def htmlEscape : Str → Str
  | [] => []
  | c :: cs => escChar c ++ htmlEscape cs

/-- Lazy-body search of `re.sub(r"\*\*(.+?)\*\*", ...)`: having consumed
the opening `**` and at least one body character (`acc`, reversed), close
at the first `**`; `.` does not match a newline, so a newline aborts. -/
def boldFindAux : Str → Str → Option (Str × Str)
  | _, [] => none
  | acc, c :: cs =>
    if c = '*' ∧ cs.head? = some '*' then some (acc.reverse, cs.tail)
    else if c = '\n' then none
    else boldFindAux (c :: acc) cs

/-- Match attempt of `\*\*(.+?)\*\*` directly after an opening `**`:
returns the (nonempty, newline-free, shortest) body and the rest after the
closing `**`. -/
def boldFind : Str → Option (Str × Str)
  | [] => none
  | c :: cs => if c = '\n' then none else boldFindAux [c] cs

theorem boldFindAux_spec (l : Str) : ∀ (acc content rest : Str),
    boldFindAux acc l = some (content, rest) →
    ∃ mid, content = acc.reverse ++ mid ∧ l = mid ++ '*' :: '*' :: rest := by
  induction l with
  | nil => intro acc content rest h; exact absurd h (by simp [boldFindAux])
  | cons c cs ih =>
    intro acc content rest h
    rw [boldFindAux] at h
    split_ifs at h with h1 h2
    · obtain ⟨hc, hh⟩ := h1
      obtain ⟨cs', hcs⟩ : ∃ cs', cs = '*' :: cs' := by
        cases cs with
        | nil => simp at hh
        | cons d ds =>
          simp only [List.head?_cons, Option.some.injEq] at hh
          exact ⟨ds, by rw [hh]⟩
      cases Prod.mk.injEq _ _ _ _ ▸ Option.some.inj h
      subst hc
      refine ⟨[], ?_, ?_⟩
      · simp_all
      · simp_all
    · obtain ⟨mid', hco, hl⟩ := ih (c :: acc) content rest h
      refine ⟨c :: mid', ?_, by simp [hl]⟩
      simp only [List.reverse_cons] at hco
      simp [hco]

theorem boldFind_spec {l content rest : Str}
    (h : boldFind l = some (content, rest)) :
    content ≠ [] ∧ l = content ++ '*' :: '*' :: rest := by
  match l with
  | [] => exact absurd h (by simp [boldFind])
  | c :: cs =>
    simp only [boldFind] at h
    split_ifs at h with hn
    obtain ⟨mid, hco, hl⟩ := boldFindAux_spec cs [c] content rest h
    simp only [List.reverse_cons, List.reverse_nil, List.nil_append] at hco
    subst hco
    exact ⟨by simp, by simp [hl]⟩

theorem boldFind_length {l content rest : Str}
    (h : boldFind l = some (content, rest)) :
    rest.length + 3 ≤ l.length := by
  obtain ⟨hne, hl⟩ := boldFind_spec h
  have : 1 ≤ content.length := by
    cases content with
    | nil => exact absurd rfl hne
    | cons a as => simp
  rw [hl]
  simp only [List.length_append, List.length_cons]
  omega

/-- `re.sub(r"\*\*(.+?)\*\*", r"<b>\1</b>", esc)` as a leftmost scan,
fuelled by the input length.  When the head is an opening `**` whose body
search fails, the first `*` is emitted and scanning resumes at the second
`*` (which is the head of `cs`). -/
def boldSubF : Nat → Str → Str
  | _, [] => []
  | 0, s => s
  | f + 1, c :: cs =>
    if c = '*' ∧ cs.head? = some '*' then
      match boldFind cs.tail with
      | some (content, rest) =>
        "<b>".data ++ content ++ "</b>".data ++ boldSubF f rest
      | none => c :: boldSubF f cs
    else c :: boldSubF f cs

def boldSub (s : Str) : Str := boldSubF s.length s

theorem boldSubF_succ_cons (f : Nat) (c : Char) (cs : Str) :
    boldSubF (f + 1) (c :: cs) =
      if c = '*' ∧ cs.head? = some '*' then
        match boldFind cs.tail with
        | some (content, rest) =>
          "<b>".data ++ content ++ "</b>".data ++ boldSubF f rest
        | none => c :: boldSubF f cs
      else c :: boldSubF f cs := rfl

theorem boldSubF_irrel (f1 : Nat) : ∀ (f2 : Nat) (s : Str),
    s.length ≤ f1 → s.length ≤ f2 → boldSubF f1 s = boldSubF f2 s := by
  induction f1 with
  | zero =>
    intro f2 s h1 _
    have : s = [] := List.eq_nil_of_length_eq_zero (Nat.le_zero.mp h1)
    subst this
    cases f2 <;> rfl
  | succ f ih =>
    intro f2 s h1 h2
    cases s with
    | nil => cases f2 <;> rfl
    | cons c cs =>
      cases f2 with
      | zero => exact absurd h2 (by simp)
      | succ f2' =>
        rw [boldSubF_succ_cons, boldSubF_succ_cons]
        simp only [List.length_cons] at h1 h2
        by_cases hc : c = '*' ∧ cs.head? = some '*'
        · rw [if_pos hc, if_pos hc]
          have htail : cs.tail.length + 1 = cs.length := by
            cases cs with
            | nil => simp at hc
            | cons d ds => simp
          cases hm : boldFind cs.tail with
          | some pr =>
            obtain ⟨content, rest⟩ := pr
            have hr := boldFind_length hm
            show "<b>".data ++ content ++ "</b>".data ++ boldSubF f rest = _
            rw [ih f2' rest (by omega) (by omega)]
          | none =>
            show c :: boldSubF f cs = c :: boldSubF f2' cs
            rw [ih f2' cs (by omega) (by omega)]
        · rw [if_neg hc, if_neg hc]
          rw [ih f2' cs (by omega) (by omega)]

theorem boldSub_nil : boldSub [] = [] := rfl

theorem boldSub_bold {cs content rest : Str}
    (h : boldFind cs = some (content, rest)) :
    boldSub ('*' :: '*' :: cs) =
      "<b>".data ++ content ++ "</b>".data ++ boldSub rest := by
  show boldSubF (cs.length + 1 + 1) ('*' :: '*' :: cs) = _
  rw [boldSubF_succ_cons, if_pos (by simp)]
  show (match boldFind cs with
        | some (content, rest) =>
          "<b>".data ++ content ++ "</b>".data ++ boldSubF (cs.length + 1) rest
        | none => '*' :: boldSubF (cs.length + 1) ('*' :: cs)) = _
  rw [h]
  have hr := boldFind_length h
  show "<b>".data ++ content ++ "</b>".data ++ boldSubF (cs.length + 1) rest = _
  rw [boldSubF_irrel (cs.length + 1) rest.length rest (by omega) le_rfl]
  rfl

theorem boldSub_nobold {cs : Str} (h : boldFind cs = none) :
    boldSub ('*' :: '*' :: cs) = '*' :: boldSub ('*' :: cs) := by
  show boldSubF (cs.length + 1 + 1) ('*' :: '*' :: cs) = _
  rw [boldSubF_succ_cons, if_pos (by simp)]
  show (match boldFind cs with
        | some (content, rest) =>
          "<b>".data ++ content ++ "</b>".data ++ boldSubF (cs.length + 1) rest
        | none => '*' :: boldSubF (cs.length + 1) ('*' :: cs)) = _
  rw [h]
  rfl

theorem boldSub_cons {c : Char} {cs : Str}
    (h : ¬ (c = '*' ∧ cs.head? = some '*')) :
    boldSub (c :: cs) = c :: boldSub cs := by
  show boldSubF (cs.length + 1) (c :: cs) = _
  rw [boldSubF_succ_cons, if_neg h]
  rfl

/-- The final `esc.replace("\n", "<br/>")` of `_inline_format`. -/
def nlToBr : Str → Str
  | [] => []
  | c :: cs => if c = '\n' then "<br/>".data ++ nlToBr cs else c :: nlToBr cs

/-- `html_export._inline_format`: replace `<br>`-style tokens by newlines,
HTML-escape, re-insert bold tags, then turn newlines into `<br/>`. -/
def inlineFormat (s : Str) : Str := nlToBr (boldSub (htmlEscape (brSub s)))

/- ------------------------------------------------------------------ -/
/- html_export.py: _table_to_html                                      -/
/- ------------------------------------------------------------------ -/

/-- Body-row selection of `html_export._table_to_html`: `rows[1:]`, with
the first entry dropped when it is a separator row. -/
def htmlBodyRows (rows : List (List Str)) : List (List Str) :=
  match rows.tail with
  | [] => []
  | r :: rest => if isSepRow r then rest else r :: rest

/-- `ncols` of `html_export._table_to_html`:
`max(len(r) for r in [header] + body_rows) if body_rows else len(header)`. -/
def htmlNcols (header : List Str) (body : List (List Str)) : Nat :=
  if body.isEmpty then header.length
  else ((header :: body).map List.length).foldl Nat.max 0

/-- `norm` inside both table renderers: right-pad a row with empty cells
to `n` columns. -/
def normRow (n : Nat) (r : List Str) : List Str :=
  r ++ List.replicate (n - r.length) []

/-- One `<th>` cell of `_table_to_html`. -/
def thCell (c : Str) : Str := "<th>".data ++ inlineFormat c ++ "</th>".data

/-- One `<td>` cell of `_table_to_html`. -/
def tdCell (c : Str) : Str := "<td>".data ++ inlineFormat c ++ "</td>".data

/-- One `<tr>` body row of `_table_to_html`. -/
def trRow (r : List Str) : Str :=
  "<tr>".data ++ (r.map tdCell).flatten ++ "</tr>".data

/-- `html_export._table_to_html`. -/
def tableToHtml (rows : List (List Str)) : Str :=
  match rows with
  | [] => []
  | header :: _ =>
    let body := htmlBodyRows rows
    let ncols := htmlNcols header body
    "<table><thead><tr>".data ++ ((normRow ncols header).map thCell).flatten
      ++ "</tr></thead><tbody>".data
      ++ ((body.map (normRow ncols)).map trRow).flatten
      ++ "</tbody></table>".data

/- ------------------------------------------------------------------ -/
/- txt_export.py: _format_table and summary_markdown_to_pretty_txt     -/
/- ------------------------------------------------------------------ -/

/-- `txt_export.TableFormat`. -/
structure TableFormat where
  maxColWidth : Nat := 48
  padding : Nat := 1

/-- Data-row selection of `txt_export._format_table`: `rows[1:]`, with the
first entry dropped when it is a separator row. -/
def tableDataRows (rows : List (List Str)) : List (List Str) :=
  match rows.tail with
  | [] => []
  | r :: rest => if isSepRow r then rest else r :: rest

/-- `ncols` of `txt_export._format_table`. -/
def tableNcols (header : List Str) (dataRows : List (List Str)) : Nat :=
  if dataRows.isEmpty then header.length
  else ((header :: dataRows).map List.length).foldl Nat.max 0

/-- Maximum display width of the wrapped lines appearing in column `ci`
of the wrapped header and wrapped data rows (`maxw` in the source). -/
def colMax (wh : List (List Str)) (wrows : List (List (List Str)))
    (ci : Nat) : Nat :=
  (((wh.getD ci []).map dispWidth)
    ++ (wrows.map fun r => ((r.getD ci []).map dispWidth)).flatten).foldl
    Nat.max 0

/-- `col_widths` of `txt_export._format_table`:
`min(maxw, fmt.max_col_width)` per column. -/
def colWidthsOf (maxW : Nat) (wh : List (List Str))
    (wrows : List (List (List Str))) (ncols : Nat) : List Nat :=
  (List.range ncols).map fun ci => min (colMax wh wrows ci) maxW

/-- `parts` of `render_row` for physical line `i`: the padded `i`-th
wrapped line of each cell. -/
def renderParts (widths : List Nat) (cells : List (List Str)) (i : Nat) :
    List Str :=
  (cells.zip widths).map fun p => padTo (p.1.getD i []) p.2

/-- `height` of `render_row`. -/
def rowHeight (cells : List (List Str)) : Nat :=
  if cells.isEmpty then 1 else (cells.map List.length).foldl Nat.max 0

/-- `render_row` of `txt_export._format_table`: one bordered text line per
wrapped physical line. -/
def renderRowLines (padN : Nat) (widths : List Nat)
    (cells : List (List Str)) : List Str :=
  (List.range (rowHeight cells)).map fun i =>
    '|' :: (List.replicate padN ' '
      ++ List.intercalate
          (List.replicate padN ' ' ++ '|' :: List.replicate padN ' ')
          (renderParts widths cells i)
      ++ List.replicate padN ' ' ++ ['|'])

/-- The `sep` line of `txt_export._format_table`. -/
def tableSepLine (padN : Nat) (widths : List Nat) : Str :=
  '|' :: (List.intercalate ['+']
    (widths.map fun w => List.replicate (w + 2 * padN) '-') ++ ['|'])

/-- `txt_export._format_table` (named with a `Txt` suffix to avoid the
name of an unrelated library helper). -/
def formatTableTxt (fmt : TableFormat) (rows : List (List Str)) : List Str :=
  match rows with
  | [] => []
  | header :: _ =>
    let dataRows := tableDataRows rows
    let ncols := tableNcols header dataRows
    let wh := (normRow ncols header).map (wrapText fmt.maxColWidth)
    let wrows := (dataRows.map (normRow ncols)).map
      fun r => r.map (wrapText fmt.maxColWidth)
    let widths := colWidthsOf fmt.maxColWidth wh wrows ncols
    renderRowLines fmt.padding widths wh
      ++ tableSepLine fmt.padding widths
      :: (wrows.map (renderRowLines fmt.padding widths)).flatten

/-- Line loop of `summary_markdown_to_pretty_txt`, fuelled by the number
of lines.  On a table-like line the maximal run of table-like lines is
collected and rendered (`parseTableBlock` already restricts itself to the
leading table-like run, so it may be applied to the whole remainder);
other lines pass through emphasis-stripped and right-trimmed. -/
def prettyLinesF (tf : TableFormat) : Nat → List Str → List Str
  | _, [] => []
  | 0, _ => []
  | f + 1, line :: rest =>
    if isTableRow line then
      formatTableTxt tf (parseTableBlock (line :: rest))
        ++ prettyLinesF tf f ((line :: rest).dropWhile isTableRow)
    else pyRstrip (stripEmph line) :: prettyLinesF tf f rest

def prettyLines (tf : TableFormat) (ls : List Str) : List Str :=
  prettyLinesF tf ls.length ls

/-- The blank-collapse loop at the end of
`summary_markdown_to_pretty_txt`: runs of blank lines are replaced by at
most two empty lines. -/
def collapseBlanksAux : Nat → List Str → List Str
  | _, [] => []
  | blank, l :: rest =>
    if (pyStrip l).isEmpty then
      (if blank + 1 ≤ 2 then [([] : Str)] else [])
        ++ collapseBlanksAux (blank + 1) rest
    else l :: collapseBlanksAux 0 rest

def collapseBlanks (ls : List Str) : List Str := collapseBlanksAux 0 ls

/-- `txt_export.summary_markdown_to_pretty_txt`. -/
def summaryMarkdownToPrettyTxt (md : Str) : Str :=
  pyStrip (List.intercalate ['\n']
    (collapseBlanks (prettyLines {} (splitLines md)))) ++ ['\n']

theorem prettyLinesF_irrel (f1 : Nat) : ∀ (f2 : Nat) (ls : List Str),
    ls.length ≤ f1 → ls.length ≤ f2 →
    prettyLinesF tf f1 ls = prettyLinesF tf f2 ls := by
  induction f1 with
  | zero =>
    intro f2 ls h1 _
    have : ls = [] := List.eq_nil_of_length_eq_zero (Nat.le_zero.mp h1)
    subst this
    cases f2 <;> rfl
  | succ f ih =>
    intro f2 ls h1 h2
    cases ls with
    | nil => cases f2 <;> rfl
    | cons line rest =>
      cases f2 with
      | zero => exact absurd h2 (by simp)
      | succ f2' =>
        show (if isTableRow line then _ else _) = (if isTableRow line then _ else _)
        simp only [List.length_cons] at h1 h2
        by_cases hl : isTableRow line = true
        · rw [if_pos hl, if_pos hl]
          have hd : ((line :: rest).dropWhile isTableRow).length ≤ rest.length := by
            rw [List.dropWhile_cons, if_pos hl]
            exact dropWhile_len_le _ _
          rw [ih f2' _ (by omega) (by omega)]
        · rw [if_neg hl, if_neg hl]
          rw [ih f2' rest (by omega) (by omega)]

theorem prettyLines_nil : prettyLines tf [] = [] := rfl

theorem prettyLines_table {line : Str} {rest : List Str}
    (h : isTableRow line = true) :
    prettyLines tf (line :: rest) =
      formatTableTxt tf (parseTableBlock (line :: rest))
        ++ prettyLines tf ((line :: rest).dropWhile isTableRow) := by
  show prettyLinesF tf (rest.length + 1) (line :: rest) = _
  show (if isTableRow line then _ else _) = _
  rw [if_pos h]
  have hd : ((line :: rest).dropWhile isTableRow).length ≤ rest.length := by
    rw [List.dropWhile_cons, if_pos h]
    exact dropWhile_len_le _ _
  exact congrArg (fun t => formatTableTxt tf (parseTableBlock (line :: rest)) ++ t)
    (prettyLinesF_irrel rest.length _ _ hd le_rfl)

theorem prettyLines_other {line : Str} {rest : List Str}
    (h : isTableRow line = false) :
    prettyLines tf (line :: rest) =
      pyRstrip (stripEmph line) :: prettyLines tf rest := by
  show prettyLinesF tf (rest.length + 1) (line :: rest) = _
  show (if isTableRow line then _ else _) = _
  rw [if_neg (by simp [h])]
  rfl

/- ------------------------------------------------------------------ -/
/- Claims C2 and C4                                                    -/
/- ------------------------------------------------------------------ -/

theorem le_foldl_max (l : List Nat) : ∀ (a : Nat), a ≤ l.foldl Nat.max a := by
  induction l with
  | nil => intro a; exact le_rfl
  | cons x xs ih =>
    intro a
    exact Nat.le_trans (Nat.le_max_left a x) (ih (Nat.max a x))

theorem mem_le_foldl_max (l : List Nat) : ∀ (a : Nat), ∀ x ∈ l, x ≤ l.foldl Nat.max a := by
  induction l with
  | nil => intro a x hx; simp at hx
  | cons y ys ih =>
    intro a x hx
    rcases List.mem_cons.mp hx with rfl | hx'
    · exact Nat.le_trans (Nat.le_max_right a x) (le_foldl_max ys _)
    · exact ih _ x hx'

theorem foldl_max_le (l : List Nat) : ∀ (a b : Nat), a ≤ b → (∀ x ∈ l, x ≤ b) →
    l.foldl Nat.max a ≤ b := by
  induction l with
  | nil => intro a b ha _; exact ha
  | cons y ys ih =>
    intro a b ha hall
    exact ih _ _ (Nat.max_le.mpr ⟨ha, hall y (by simp)⟩)
      fun x hx => hall x (by simp [hx])

theorem normRow_length {n : Nat} {r : List Str} (h : r.length ≤ n) :
    (normRow n r).length = n := by
  simp only [normRow, List.length_append, List.length_replicate]
  omega

theorem tableNcols_ge (hdr : List Str) (d : List (List Str)) :
    hdr.length ≤ tableNcols hdr d ∧ ∀ r ∈ d, r.length ≤ tableNcols hdr d := by
  unfold tableNcols
  by_cases hd : d.isEmpty
  · have : d = [] := by cases d <;> simp_all
    subst this
    simp
  · rw [if_neg hd]
    constructor
    · exact mem_le_foldl_max _ 0 hdr.length (by simp)
    · intro r hr
      exact mem_le_foldl_max _ 0 r.length (by simp; right; exact ⟨r, hr, rfl⟩)

theorem htmlNcols_ge (hdr : List Str) (d : List (List Str)) :
    hdr.length ≤ htmlNcols hdr d ∧ ∀ r ∈ d, r.length ≤ htmlNcols hdr d := by
  unfold htmlNcols
  by_cases hd : d.isEmpty
  · have : d = [] := by cases d <;> simp_all
    subst this
    simp
  · rw [if_neg hd]
    constructor
    · exact mem_le_foldl_max _ 0 hdr.length (by simp)
    · intro r hr
      exact mem_le_foldl_max _ 0 r.length (by simp; right; exact ⟨r, hr, rfl⟩)

theorem tableNcols_eq_header (hdr : List Str) (d : List (List Str))
    (h : ∀ r ∈ d, r.length ≤ hdr.length) :
    tableNcols hdr d = hdr.length := by
  unfold tableNcols
  by_cases hd : d.isEmpty
  · rw [if_pos hd]
  · rw [if_neg hd]
    refine Nat.le_antisymm ?_ (mem_le_foldl_max _ 0 hdr.length (by simp))
    refine foldl_max_le _ 0 hdr.length (Nat.zero_le _) ?_
    intro x hx
    simp only [List.map_cons, List.mem_cons, List.mem_map] at hx
    rcases hx with rfl | ⟨r, hr, rfl⟩
    · exact le_rfl
    · exact h r hr

/-- C2 (amended): in both renderers every data row is right-padded with
empty trailing cells up to the table's column count; that column count is
the maximum cell count over the header and all data rows — it equals the
header's column count whenever no data row is longer than the header, but
a longer data row widens the table beyond the header count.  The rendered
HTML emits exactly that many `<th>`/`<td>` cells per row, and every
physical line of the text renderer carries exactly that many cell slots. -/
theorem claim_C2_amended (hdr : List Str) (rest : List (List Str)) :
    (hdr.length ≤ tableNcols hdr (tableDataRows (hdr :: rest)) ∧
      ∀ r ∈ tableDataRows (hdr :: rest),
        r.length ≤ tableNcols hdr (tableDataRows (hdr :: rest))) ∧
    (∀ r ∈ tableDataRows (hdr :: rest),
      normRow (tableNcols hdr (tableDataRows (hdr :: rest))) r =
        r ++ List.replicate
          (tableNcols hdr (tableDataRows (hdr :: rest)) - r.length) [] ∧
      (normRow (tableNcols hdr (tableDataRows (hdr :: rest))) r).length =
        tableNcols hdr (tableDataRows (hdr :: rest))) ∧
    ((∀ r ∈ tableDataRows (hdr :: rest), r.length ≤ hdr.length) →
      tableNcols hdr (tableDataRows (hdr :: rest)) = hdr.length) ∧
    (((normRow (htmlNcols hdr (htmlBodyRows (hdr :: rest))) hdr).map
        thCell).length = htmlNcols hdr (htmlBodyRows (hdr :: rest)) ∧
      ∀ r ∈ htmlBodyRows (hdr :: rest),
        ((normRow (htmlNcols hdr (htmlBodyRows (hdr :: rest))) r).map
          tdCell).length = htmlNcols hdr (htmlBodyRows (hdr :: rest))) ∧
    (∀ (widths : List Nat) (cells : List (List Str)) (i : Nat),
      cells.length = tableNcols hdr (tableDataRows (hdr :: rest)) →
      widths.length = tableNcols hdr (tableDataRows (hdr :: rest)) →
      (renderParts widths cells i).length =
        tableNcols hdr (tableDataRows (hdr :: rest))) := by
  obtain ⟨hge1, hge2⟩ := tableNcols_ge hdr (tableDataRows (hdr :: rest))
  obtain ⟨hhge1, hhge2⟩ := htmlNcols_ge hdr (htmlBodyRows (hdr :: rest))
  refine ⟨⟨hge1, hge2⟩, ?_, tableNcols_eq_header _ _, ⟨?_, ?_⟩, ?_⟩
  · intro r hr
    exact ⟨rfl, normRow_length (hge2 r hr)⟩
  · rw [List.length_map, normRow_length hhge1]
  · intro r hr
    rw [List.length_map, normRow_length (hhge2 r hr)]
  · intro widths cells i hc hw
    simp only [renderParts, List.length_map, List.length_zip, hc, hw,
      Nat.min_self]

/-- Witness for C2 (amended): a concrete table whose single data row is
shorter than the two-column header. -/
theorem claim_C2_amended_witness :
    (∀ r ∈ tableDataRows [["h1".data, "h2".data], ["x".data]],
      r.length ≤ ("h1".data :: ["h2".data]).length) ∧
    tableNcols ["h1".data, "h2".data]
      (tableDataRows [["h1".data, "h2".data], ["x".data]]) =
      (["h1".data, "h2".data] : List Str).length :=
  ⟨by decide,
   (claim_C2_amended ["h1".data, "h2".data] [["x".data]]).2.2.1 (by decide)⟩

/-- Count of (possibly overlapping) occurrences of `p` in a string; used
to count emitted `<th>` cells. -/
def countSub (p : Str) : Str → Nat
  | [] => 0
  | s@(_ :: tail) => (if p.isPrefixOf s then 1 else 0) + countSub p tail

/-- Counterexample for C2 as stated: parsing the block `| a |` /
`| b | c |` gives a header with one cell and a data row with two, and the
rendered HTML table has two `<th>` columns, not the header's one. -/
theorem claim_C2_cex :
    parseTableBlock ["| a |".data, "| b | c |".data] =
      [["a".data], ["b".data, "c".data]] ∧
    countSub "<th>".data
      (tableToHtml (parseTableBlock ["| a |".data, "| b | c |".data])) = 2 ∧
    (parseTableBlock ["| a |".data, "| b | c |".data]).headI.length = 1 ∧
    countSub "<th>".data
        (tableToHtml (parseTableBlock ["| a |".data, "| b | c |".data])) ≠
      (parseTableBlock ["| a |".data, "| b | c |".data]).headI.length := by
  refine ⟨by decide, by decide, by decide, by decide⟩

theorem formatTableTxt_cons (tf : TableFormat) (hdr : List Str)
    (t : List (List Str)) :
    formatTableTxt tf (hdr :: t) =
      renderRowLines tf.padding
          (colWidthsOf tf.maxColWidth
            ((normRow (tableNcols hdr (tableDataRows (hdr :: t))) hdr).map
              (wrapText tf.maxColWidth))
            (((tableDataRows (hdr :: t)).map
                (normRow (tableNcols hdr (tableDataRows (hdr :: t))))).map
              fun r => r.map (wrapText tf.maxColWidth))
            (tableNcols hdr (tableDataRows (hdr :: t))))
          ((normRow (tableNcols hdr (tableDataRows (hdr :: t))) hdr).map
            (wrapText tf.maxColWidth))
        ++ tableSepLine tf.padding
            (colWidthsOf tf.maxColWidth
              ((normRow (tableNcols hdr (tableDataRows (hdr :: t))) hdr).map
                (wrapText tf.maxColWidth))
              (((tableDataRows (hdr :: t)).map
                  (normRow (tableNcols hdr (tableDataRows (hdr :: t))))).map
                fun r => r.map (wrapText tf.maxColWidth))
              (tableNcols hdr (tableDataRows (hdr :: t))))
          :: ((((tableDataRows (hdr :: t)).map
                  (normRow (tableNcols hdr (tableDataRows (hdr :: t))))).map
                fun r => r.map (wrapText tf.maxColWidth)).map
              (renderRowLines tf.padding
                (colWidthsOf tf.maxColWidth
                  ((normRow (tableNcols hdr (tableDataRows (hdr :: t))) hdr).map
                    (wrapText tf.maxColWidth))
                  (((tableDataRows (hdr :: t)).map
                      (normRow (tableNcols hdr (tableDataRows (hdr :: t))))).map
                    fun r => r.map (wrapText tf.maxColWidth))
                  (tableNcols hdr (tableDataRows (hdr :: t)))))).flatten := rfl

theorem tableToHtml_cons (hdr : List Str) (t : List (List Str)) :
    tableToHtml (hdr :: t) =
      "<table><thead><tr>".data
        ++ ((normRow (htmlNcols hdr (htmlBodyRows (hdr :: t))) hdr).map
            thCell).flatten
        ++ "</tr></thead><tbody>".data
        ++ (((htmlBodyRows (hdr :: t)).map
              (normRow (htmlNcols hdr (htmlBodyRows (hdr :: t))))).map
            trRow).flatten
        ++ "</tbody></table>".data := rfl

/-- C4: in both renderers, when the row following the header consists
entirely of separator cells it is dropped: the data rows used are exactly
the remaining rows, and (as long as those remaining rows do not themselves
start with another separator row) the rendered output is identical to the
rendering of the table without the separator row. -/
theorem claim_C4 (hdr r : List Str) (rest : List (List Str))
    (tf : TableFormat) (hsep : isSepRow r = true) :
    tableDataRows (hdr :: r :: rest) = rest ∧
    htmlBodyRows (hdr :: r :: rest) = rest ∧
    ((rest = [] ∨ isSepRow rest.headI = false) →
      formatTableTxt tf (hdr :: r :: rest) = formatTableTxt tf (hdr :: rest) ∧
      tableToHtml (hdr :: r :: rest) = tableToHtml (hdr :: rest)) := by
  have h1 : tableDataRows (hdr :: r :: rest) = rest := by
    simp [tableDataRows, hsep]
  have h2 : htmlBodyRows (hdr :: r :: rest) = rest := by
    simp [htmlBodyRows, hsep]
  refine ⟨h1, h2, fun hr => ?_⟩
  have h3 : tableDataRows (hdr :: rest) = rest := by
    rcases hr with hnil | hhead
    · subst hnil; rfl
    · cases rest with
      | nil => rfl
      | cons r2 rest2 =>
        simp only [List.headI] at hhead
        simp [tableDataRows, hhead]
  have h4 : htmlBodyRows (hdr :: rest) = rest := by
    rcases hr with hnil | hhead
    · subst hnil; rfl
    · cases rest with
      | nil => rfl
      | cons r2 rest2 =>
        simp only [List.headI] at hhead
        simp [htmlBodyRows, hhead]
  constructor
  · rw [formatTableTxt_cons, formatTableTxt_cons, h1, h3]
  · rw [tableToHtml_cons, tableToHtml_cons, h2, h4]

/-- Witness for C4 at a concrete table with a `--` separator row. -/
theorem claim_C4_witness :
    isSepRow [['-', '-']] = true ∧
    tableDataRows [[['h']], [['-', '-']], [['x']]] = [[['x']]] ∧
    tableToHtml [[['h']], [['-', '-']], [['x']]] =
      tableToHtml [[['h']], [['x']]] := by
  have h := claim_C4 [['h']] [['-', '-']] [[['x']]] {} (by decide)
  exact ⟨by decide, h.1, (h.2.2 (Or.inr (by decide))).2⟩

/- ------------------------------------------------------------------ -/
/- Claim C5: token and escaping analysis of _inline_format             -/
/- ------------------------------------------------------------------ -/

/-- States of the matcher for a literal line-break token
`<` `[bB]` `[rR]` (non-newline whitespace)* `/`? `>` (the `<br\s*/?>`
pattern restricted to non-newline whitespace; the final output of
`_inline_format` contains no newline, so nothing is lost). -/
inductive RSt : Type
  | r0 | r1 | r2 | r3 | r4 | racc
deriving DecidableEq

def rstep : RSt → Char → Option RSt
  | .r0, c => if c = '<' then some .r1 else none
  | .r1, c => if c = 'b' ∨ c = 'B' then some .r2 else none
  | .r2, c => if c = 'r' ∨ c = 'R' then some .r3 else none
  | .r3, c =>
    if wsNoNl c then some .r3
    else if c = '/' then some .r4
    else if c = '>' then some .racc
    else none
  | .r4, c => if c = '>' then some .racc else none
  | .racc, _ => none

/-- Does a literal line-break token start at the head of the string, when
the matcher is in state `st`? -/
def rrun : RSt → Str → Bool
  | st, [] => decide (st = .racc)
  | st, c :: cs =>
    if st = .racc then true
    else
      match rstep st c with
      | some st' => rrun st' cs
      | none => false

/-- Does a literal line-break token occur anywhere in the string? -/
def hasRawTok : Str → Bool
  | [] => false
  | s@(_ :: tail) => rrun .r0 s || hasRawTok tail

/-- States of the matcher for the HTML-escaped form of a line-break token:
`&lt;` `[bB]` `[rR]` (non-newline whitespace)* `/`? `&gt;`. -/
inductive ESt : Type
  | e0 | e1 | e2 | e3 | e4 | e5 | e6 | e7 | e8 | e9 | e10 | eacc
deriving DecidableEq

def estep : ESt → Char → Option ESt
  | .e0, c => if c = '&' then some .e1 else none
  | .e1, c => if c = 'l' then some .e2 else none
  | .e2, c => if c = 't' then some .e3 else none
  | .e3, c => if c = ';' then some .e4 else none
  | .e4, c => if c = 'b' ∨ c = 'B' then some .e5 else none
  | .e5, c => if c = 'r' ∨ c = 'R' then some .e6 else none
  | .e6, c =>
    if wsNoNl c then some .e6
    else if c = '/' then some .e7
    else if c = '&' then some .e8
    else none
  | .e7, c => if c = '&' then some .e8 else none
  | .e8, c => if c = 'g' then some .e9 else none
  | .e9, c => if c = 't' then some .e10 else none
  | .e10, c => if c = ';' then some .eacc else none
  | .eacc, _ => none

/-- Does an escaped line-break token start at the head, from state `st`? -/
def erun : ESt → Str → Bool
  | st, [] => decide (st = .eacc)
  | st, c :: cs =>
    if st = .eacc then true
    else
      match estep st c with
      | some st' => erun st' cs
      | none => false

/-- Does an escaped line-break token (`&lt;br&gt;`, `&lt;br/&gt;`, case
variants, optional internal whitespace) occur anywhere in the string? -/
def hasEscTok : Str → Bool
  | [] => false
  | s@(_ :: tail) => erun .e0 s || hasEscTok tail

theorem rrun_racc (l : Str) : rrun .racc l = true := by
  cases l <;> rfl

theorem erun_eacc (l : Str) : erun .eacc l = true := by
  cases l <;> rfl

theorem rrun_cons (st : RSt) (c : Char) (cs : Str) (h : st ≠ .racc) :
    rrun st (c :: cs) =
      match rstep st c with
      | some st' => rrun st' cs
      | none => false := by
  show (if st = .racc then true else _) = _
  rw [if_neg h]

theorem erun_cons (st : ESt) (c : Char) (cs : Str) (h : st ≠ .eacc) :
    erun st (c :: cs) =
      match estep st c with
      | some st' => erun st' cs
      | none => false := by
  show (if st = .eacc then true else _) = _
  rw [if_neg h]

theorem hasRawTok_cons (c : Char) (t : Str) :
    hasRawTok (c :: t) = (rrun .r0 (c :: t) || hasRawTok t) := rfl

theorem hasEscTok_cons (c : Char) (t : Str) :
    hasEscTok (c :: t) = (erun .e0 (c :: t) || hasEscTok t) := rfl

theorem rstep_nl (st : RSt) : rstep st '\n' = none := by
  cases st <;> rfl

theorem rstep_lt_ne (st : RSt) (h : st ≠ .r0) : rstep st '<' = none := by
  cases st
  · exact absurd rfl h
  all_goals rfl

theorem brSub_rrun_pres (n : Nat) : ∀ (s : Str), s.length ≤ n → ∀ (st : RSt),
    rrun st (brSub s) = true → rrun st s = true := by
  induction n with
  | zero =>
    intro s hs st h
    have : s = [] := List.eq_nil_of_length_eq_zero (Nat.le_zero.mp hs)
    subst this
    exact h
  | succ n ih =>
    intro s hs st h
    by_cases hacc : st = .racc
    · subst hacc; exact rrun_racc s
    cases s with
    | nil => exact h
    | cons c cs =>
      simp only [List.length_cons] at hs
      by_cases hc : c = '<'
      · subst hc
        cases hm : brMatch cs with
        | some rest =>
          rw [brSub_match hm] at h
          rw [rrun_cons _ _ _ hacc, rstep_nl] at h
          simp at h
        | none =>
          rw [brSub_nomatch hm] at h
          rw [rrun_cons _ _ _ hacc] at h
          rw [rrun_cons _ _ _ hacc]
          by_cases hr0 : st = .r0
          · subst hr0
            rw [show rstep RSt.r0 '<' = some RSt.r1 from rfl] at h ⊢
            replace h : rrun RSt.r1 (brSub cs) = true := h
            exact ih cs (by omega) .r1 h
          · rw [rstep_lt_ne st hr0] at h
            simp at h
      · rw [brSub_cons hc] at h
        rw [rrun_cons _ _ _ hacc] at h
        rw [rrun_cons _ _ _ hacc]
        cases hst : rstep st c with
        | some st' =>
          rw [hst] at h
          replace h : rrun st' (brSub cs) = true := h
          exact ih cs (by omega) st' h
        | none =>
          rw [hst] at h
          simp at h

theorem rrun_r3_brClose : ∀ (l : Str), rrun .r3 l = true →
    ∃ rest, brClose (l.dropWhile pyWs) = some rest := by
  intro l
  induction l with
  | nil => intro h; simp [rrun] at h
  | cons c cs ih =>
    intro h
    rw [rrun_cons _ _ _ (by simp)] at h
    by_cases hws : wsNoNl c
    · rw [show rstep RSt.r3 c = (if wsNoNl c then some RSt.r3 else
          if c = '/' then some RSt.r4 else if c = '>' then some RSt.racc
          else none) from rfl, if_pos hws] at h
      replace h : rrun RSt.r3 cs = true := h
      obtain ⟨rest, hrest⟩ := ih h
      refine ⟨rest, ?_⟩
      rw [List.dropWhile_cons, if_pos (by simp [pyWs, hws])]
      exact hrest
    · by_cases hsl : c = '/'
      · subst hsl
        rw [show rstep RSt.r3 '/' = some RSt.r4 from rfl] at h
        replace h : rrun RSt.r4 cs = true := h
        cases cs with
        | nil => simp [rrun] at h
        | cons d ds =>
          rw [rrun_cons _ _ _ (by simp)] at h
          by_cases hd : d = '>'
          · subst hd
            refine ⟨ds, ?_⟩
            rw [List.dropWhile_cons, if_neg (by decide)]
            show brClose ('/' :: '>' :: ds) = some ds
            rw [brClose, if_neg (by decide), if_pos (by simp)]
            rfl
          · rw [show rstep RSt.r4 d = (if d = '>' then some RSt.racc
                else none) from rfl, if_neg hd] at h
            simp at h
      · by_cases hgt : c = '>'
        · subst hgt
          refine ⟨cs, ?_⟩
          rw [List.dropWhile_cons, if_neg (by decide)]
          show brClose ('>' :: cs) = some cs
          rw [brClose, if_pos rfl]
        · rw [show rstep RSt.r3 c = (if wsNoNl c then some RSt.r3 else
              if c = '/' then some RSt.r4 else if c = '>' then some RSt.racc
              else none) from rfl, if_neg hws, if_neg hsl, if_neg hgt] at h
          simp at h

theorem rrun_r1_brMatch : ∀ (l : Str), rrun .r1 l = true →
    ∃ rest, brMatch l = some rest := by
  intro l h
  cases l with
  | nil => simp [rrun] at h
  | cons b cs =>
    rw [rrun_cons _ _ _ (by simp)] at h
    by_cases hb : b = 'b' ∨ b = 'B'
    · rw [show rstep RSt.r1 b = (if b = 'b' ∨ b = 'B' then some RSt.r2
          else none) from rfl, if_pos hb] at h
      replace h : rrun RSt.r2 cs = true := h
      cases cs with
      | nil => simp [rrun] at h
      | cons r cs2 =>
        rw [rrun_cons _ _ _ (by simp)] at h
        by_cases hr : r = 'r' ∨ r = 'R'
        · rw [show rstep RSt.r2 r = (if r = 'r' ∨ r = 'R' then some RSt.r3
              else none) from rfl, if_pos hr] at h
          replace h : rrun RSt.r3 cs2 = true := h
          obtain ⟨rest, hrest⟩ := rrun_r3_brClose cs2 h
          refine ⟨rest, ?_⟩
          rw [brMatch, if_pos ⟨hb, hr⟩]
          exact hrest
        · rw [show rstep RSt.r2 r = (if r = 'r' ∨ r = 'R' then some RSt.r3
              else none) from rfl, if_neg hr] at h
          simp at h
    · rw [show rstep RSt.r1 b = (if b = 'b' ∨ b = 'B' then some RSt.r2
          else none) from rfl, if_neg hb] at h
      simp at h

/-- After the `<br>`-token substitution pass no literal line-break token
remains anywhere in the text (a leftover token start would have been
matched and replaced by the left-to-right scan). -/
theorem brSub_noRawTok (n : Nat) : ∀ (s : Str), s.length ≤ n →
    hasRawTok (brSub s) = false := by
  induction n with
  | zero =>
    intro s hs
    have : s = [] := List.eq_nil_of_length_eq_zero (Nat.le_zero.mp hs)
    subst this
    rfl
  | succ n ih =>
    intro s hs
    cases s with
    | nil => rfl
    | cons c cs =>
      simp only [List.length_cons] at hs
      by_cases hc : c = '<'
      · subst hc
        cases hm : brMatch cs with
        | some rest =>
          rw [brSub_match hm, hasRawTok_cons]
          have h1 : rrun .r0 ('\n' :: brSub rest) = false := by
            rw [rrun_cons _ _ _ (by simp), rstep_nl]
          have hr := brMatch_length hm
          rw [h1, ih rest (by omega)]
          rfl
        | none =>
          rw [brSub_nomatch hm, hasRawTok_cons]
          have h1 : rrun .r0 ('<' :: brSub cs) = false := by
            rw [rrun_cons _ _ _ (by simp)]
            rw [show rstep RSt.r0 '<' = some RSt.r1 from rfl]
            show rrun RSt.r1 (brSub cs) = false
            cases h3 : rrun .r1 (brSub cs)
            · rfl
            · have h4 := brSub_rrun_pres n cs (by omega) .r1 h3
              obtain ⟨rest, hrest⟩ := rrun_r1_brMatch cs h4
              rw [hrest] at hm
              exact absurd hm (by simp)
          rw [h1, ih cs (by omega)]
          rfl
      · rw [brSub_cons hc, hasRawTok_cons]
        have h1 : rrun .r0 (c :: brSub cs) = false := by
          rw [rrun_cons _ _ _ (by simp)]
          rw [show rstep RSt.r0 c = (if c = '<' then some RSt.r1 else none)
            from rfl, if_neg hc]
        rw [h1, ih cs (by omega)]
        rfl

/-- Correspondence between states of the escaped-token matcher and the
literal-token matcher: entity-interior states have no counterpart. -/
def corr : ESt → Option RSt
  | .e0 => some .r0
  | .e4 => some .r1
  | .e5 => some .r2
  | .e6 => some .r3
  | .e7 => some .r4
  | .eacc => some .racc
  | _ => none

theorem erun_escape_corr : ∀ (t : Str) (st : ESt) (rst : RSt),
    corr st = some rst → erun st (htmlEscape t) = true → rrun rst t = true := by
  intro t
  induction t with
  | nil =>
    intro st rst hco h
    have hst : st = .eacc := by
      cases st <;> first | rfl | simp [erun] at h
    subst hst
    cases hco
    rfl
  | cons c t' ih =>
    intro st rst hco h
    show rrun rst (c :: t') = true
    by_cases hacc : st = .eacc
    · subst hacc
      cases hco
      exact rrun_racc _
    by_cases hamp : c = '&'
    · subst hamp
      replace h : erun st ('&' :: 'a' :: 'm' :: 'p' :: ';' :: htmlEscape t') = true := h
      cases st
      · rw [show erun ESt.e0 ('&' :: 'a' :: 'm' :: 'p' :: ';' :: htmlEscape t')
          = false from rfl] at h
        simp at h
      · simp [corr] at hco
      · simp [corr] at hco
      · simp [corr] at hco
      · rw [show erun ESt.e4 ('&' :: 'a' :: 'm' :: 'p' :: ';' :: htmlEscape t')
          = false from rfl] at h
        simp at h
      · rw [show erun ESt.e5 ('&' :: 'a' :: 'm' :: 'p' :: ';' :: htmlEscape t')
          = false from rfl] at h
        simp at h
      · rw [show erun ESt.e6 ('&' :: 'a' :: 'm' :: 'p' :: ';' :: htmlEscape t')
          = false from rfl] at h
        simp at h
      · rw [show erun ESt.e7 ('&' :: 'a' :: 'm' :: 'p' :: ';' :: htmlEscape t')
          = false from rfl] at h
        simp at h
      · simp [corr] at hco
      · simp [corr] at hco
      · simp [corr] at hco
      · exact absurd rfl hacc
    by_cases hlt : c = '<'
    · subst hlt
      replace h : erun st ('&' :: 'l' :: 't' :: ';' :: htmlEscape t') = true := h
      cases st
      · cases hco
        replace h : erun ESt.e4 (htmlEscape t') = true := h
        exact ih .e4 .r1 rfl h
      · simp [corr] at hco
      · simp [corr] at hco
      · simp [corr] at hco
      · rw [show erun ESt.e4 ('&' :: 'l' :: 't' :: ';' :: htmlEscape t')
          = false from rfl] at h
        simp at h
      · rw [show erun ESt.e5 ('&' :: 'l' :: 't' :: ';' :: htmlEscape t')
          = false from rfl] at h
        simp at h
      · rw [show erun ESt.e6 ('&' :: 'l' :: 't' :: ';' :: htmlEscape t')
          = false from rfl] at h
        simp at h
      · rw [show erun ESt.e7 ('&' :: 'l' :: 't' :: ';' :: htmlEscape t')
          = false from rfl] at h
        simp at h
      · simp [corr] at hco
      · simp [corr] at hco
      · simp [corr] at hco
      · exact absurd rfl hacc
    by_cases hgt : c = '>'
    · subst hgt
      replace h : erun st ('&' :: 'g' :: 't' :: ';' :: htmlEscape t') = true := h
      cases st
      · rw [show erun ESt.e0 ('&' :: 'g' :: 't' :: ';' :: htmlEscape t')
          = false from rfl] at h
        simp at h
      · simp [corr] at hco
      · simp [corr] at hco
      · simp [corr] at hco
      · rw [show erun ESt.e4 ('&' :: 'g' :: 't' :: ';' :: htmlEscape t')
          = false from rfl] at h
        simp at h
      · rw [show erun ESt.e5 ('&' :: 'g' :: 't' :: ';' :: htmlEscape t')
          = false from rfl] at h
        simp at h
      · cases hco
        exact rrun_racc t'
      · cases hco
        exact rrun_racc t'
      · simp [corr] at hco
      · simp [corr] at hco
      · simp [corr] at hco
      · exact absurd rfl hacc
    · have hesc : escChar c = [c] := by
        rw [escChar, if_neg hamp, if_neg hlt, if_neg hgt]
      rw [show htmlEscape (c :: t') = escChar c ++ htmlEscape t' from rfl,
        hesc] at h
      replace h : erun st (c :: htmlEscape t') = true := h
      cases st
      · rw [erun_cons _ _ _ (by simp),
          show estep ESt.e0 c = (if c = '&' then some ESt.e1 else none)
            from rfl, if_neg hamp] at h
        simp at h
      · simp [corr] at hco
      · simp [corr] at hco
      · simp [corr] at hco
      · cases hco
        rw [erun_cons _ _ _ (by simp),
          show estep ESt.e4 c = (if c = 'b' ∨ c = 'B' then some ESt.e5
            else none) from rfl] at h
        by_cases hb : c = 'b' ∨ c = 'B'
        · rw [if_pos hb] at h
          replace h : erun ESt.e5 (htmlEscape t') = true := h
          have hr := ih .e5 .r2 rfl h
          rw [rrun_cons _ _ _ (by simp),
            show rstep RSt.r1 c = (if c = 'b' ∨ c = 'B' then some RSt.r2
              else none) from rfl, if_pos hb]
          exact hr
        · rw [if_neg hb] at h
          simp at h
      · cases hco
        rw [erun_cons _ _ _ (by simp),
          show estep ESt.e5 c = (if c = 'r' ∨ c = 'R' then some ESt.e6
            else none) from rfl] at h
        by_cases hb : c = 'r' ∨ c = 'R'
        · rw [if_pos hb] at h
          replace h : erun ESt.e6 (htmlEscape t') = true := h
          have hr := ih .e6 .r3 rfl h
          rw [rrun_cons _ _ _ (by simp),
            show rstep RSt.r2 c = (if c = 'r' ∨ c = 'R' then some RSt.r3
              else none) from rfl, if_pos hb]
          exact hr
        · rw [if_neg hb] at h
          simp at h
      · cases hco
        rw [erun_cons _ _ _ (by simp),
          show estep ESt.e6 c = (if wsNoNl c then some ESt.e6
            else if c = '/' then some ESt.e7
            else if c = '&' then some ESt.e8 else none) from rfl] at h
        rw [rrun_cons _ _ _ (by simp),
          show rstep RSt.r3 c = (if wsNoNl c then some RSt.r3
            else if c = '/' then some RSt.r4
            else if c = '>' then some RSt.racc else none) from rfl]
        by_cases hws : wsNoNl c
        · rw [if_pos hws] at h
          rw [if_pos hws]
          replace h : erun ESt.e6 (htmlEscape t') = true := h
          exact ih .e6 .r3 rfl h
        · rw [if_neg hws] at h
          rw [if_neg hws]
          by_cases hsl : c = '/'
          · rw [if_pos hsl] at h
            rw [if_pos hsl]
            replace h : erun ESt.e7 (htmlEscape t') = true := h
            exact ih .e7 .r4 rfl h
          · rw [if_neg hsl, if_neg hamp] at h
            simp at h
      · cases hco
        rw [erun_cons _ _ _ (by simp),
          show estep ESt.e7 c = (if c = '&' then some ESt.e8 else none)
            from rfl, if_neg hamp] at h
        simp at h
      · simp [corr] at hco
      · simp [corr] at hco
      · simp [corr] at hco
      · exact absurd rfl hacc

theorem hasEscTok_escape : ∀ (t : Str),
    hasEscTok (htmlEscape t) = true → hasRawTok t = true := by
  intro t
  induction t with
  | nil => intro h; exact absurd h (by simp [htmlEscape, hasEscTok])
  | cons c t' ih =>
    intro h
    rw [hasRawTok_cons]
    by_cases hamp : c = '&'
    · subst hamp
      replace h : hasEscTok (htmlEscape t') = true := h
      rw [ih h]
      simp
    by_cases hlt : c = '<'
    · subst hlt
      replace h : (erun ESt.e4 (htmlEscape t') || hasEscTok (htmlEscape t'))
        = true := h
      rcases Bool.or_eq_true_iff.mp h with h1 | h2
      · have hr := erun_escape_corr t' .e4 .r1 rfl h1
        have : rrun RSt.r0 ('<' :: t') = true := hr
        rw [this]
        simp
      · rw [ih h2]
        simp
    by_cases hgt : c = '>'
    · subst hgt
      replace h : hasEscTok (htmlEscape t') = true := h
      rw [ih h]
      simp
    · have hesc : escChar c = [c] := by
        rw [escChar, if_neg hamp, if_neg hlt, if_neg hgt]
      rw [show htmlEscape (c :: t') = escChar c ++ htmlEscape t' from rfl,
        hesc] at h
      replace h : (erun ESt.e0 (c :: htmlEscape t')
        || hasEscTok (htmlEscape t')) = true := h
      rcases Bool.or_eq_true_iff.mp h with h1 | h2
      · rw [erun_cons _ _ _ (by simp),
          show estep ESt.e0 c = (if c = '&' then some ESt.e1 else none)
            from rfl, if_neg hamp] at h1
        simp at h1
      · rw [ih h2]
        simp

theorem estep_lt (st : ESt) : estep st '<' = none := by
  cases st <;> rfl

theorem estep_gt (st : ESt) : estep st '>' = none := by
  cases st <;> rfl

theorem estep_star (st : ESt) : estep st '*' = none := by
  cases st <;> rfl

theorem estep_slash_of_ne (st : ESt) (h : st ≠ .e6) : estep st '/' = none := by
  cases st
  all_goals first | rfl | exact absurd rfl h

theorem erun_lt_dead {st : ESt} (h : st ≠ .eacc) (w : Str) :
    erun st ('<' :: w) = false := by
  rw [erun_cons _ _ _ h, estep_lt]

theorem erun_append_ext : ∀ (xs : Str) (st : ESt) (ys : Str),
    erun st xs = true → erun st (xs ++ ys) = true := by
  intro xs
  induction xs with
  | nil =>
    intro st ys h
    have : st = .eacc := by simpa [erun] using h
    subst this
    exact erun_eacc ys
  | cons c xs' ih =>
    intro st ys h
    by_cases hacc : st = .eacc
    · subst hacc; exact erun_eacc _
    rw [erun_cons _ _ _ hacc] at h
    rw [List.cons_append, erun_cons _ _ _ hacc]
    cases hst : estep st c with
    | some st' =>
      rw [hst] at h
      replace h : erun st' xs' = true := h
      exact ih st' ys h
    | none =>
      rw [hst] at h
      simp at h

theorem hasEscTok_ext_right : ∀ (xs ys : Str),
    hasEscTok xs = true → hasEscTok (xs ++ ys) = true := by
  intro xs
  induction xs with
  | nil => intro ys h; simp [hasEscTok] at h
  | cons c xs' ih =>
    intro ys h
    replace h : (erun ESt.e0 (c :: xs') || hasEscTok xs') = true := h
    rw [List.cons_append]
    show (erun ESt.e0 (c :: (xs' ++ ys)) || hasEscTok (xs' ++ ys)) = true
    rcases Bool.or_eq_true_iff.mp h with h1 | h2
    · have := erun_append_ext (c :: xs') .e0 ys h1
      rw [List.cons_append] at this
      rw [this]
      simp
    · rw [ih ys h2]
      simp

theorem hasEscTok_ext_left : ∀ (xs ys : Str),
    hasEscTok ys = true → hasEscTok (xs ++ ys) = true := by
  intro xs
  induction xs with
  | nil => intro ys h; simpa using h
  | cons c xs' ih =>
    intro ys h
    rw [List.cons_append]
    show (erun ESt.e0 (c :: (xs' ++ ys)) || hasEscTok (xs' ++ ys)) = true
    rw [ih ys h]
    simp

theorem erun_cross_lt : ∀ (xs : Str) (st : ESt) (zs : Str),
    erun st (xs ++ '<' :: zs) = true → erun st xs = true := by
  intro xs
  induction xs with
  | nil =>
    intro st zs h
    by_cases hacc : st = .eacc
    · subst hacc; rfl
    · rw [List.nil_append, erun_lt_dead hacc] at h
      simp at h
  | cons c xs' ih =>
    intro st zs h
    by_cases hacc : st = .eacc
    · subst hacc; exact erun_eacc _
    rw [List.cons_append, erun_cons _ _ _ hacc] at h
    rw [erun_cons _ _ _ hacc]
    cases hst : estep st c with
    | some st' =>
      rw [hst] at h
      replace h : erun st' (xs' ++ '<' :: zs) = true := h
      exact ih st' zs h
    | none =>
      rw [hst] at h
      simp at h

theorem hasEscTok_split_lt : ∀ (xs zs : Str),
    hasEscTok (xs ++ '<' :: zs) = true →
    hasEscTok xs = true ∨ hasEscTok ('<' :: zs) = true := by
  intro xs
  induction xs with
  | nil => intro zs h; exact Or.inr (by simpa using h)
  | cons c xs' ih =>
    intro zs h
    rw [List.cons_append] at h
    replace h : (erun ESt.e0 (c :: (xs' ++ '<' :: zs))
      || hasEscTok (xs' ++ '<' :: zs)) = true := h
    rcases Bool.or_eq_true_iff.mp h with h1 | h2
    · rw [← List.cons_append] at h1
      have := erun_cross_lt (c :: xs') .e0 zs h1
      left
      show (erun ESt.e0 (c :: xs') || hasEscTok xs') = true
      rw [this]
      simp
    · rcases ih zs h2 with h3 | h3
      · left
        show (erun ESt.e0 (c :: xs') || hasEscTok xs') = true
        rw [h3]
        simp
      · exact Or.inr h3

theorem hasEscTok_peel {c : Char} (hc : c ≠ '&') {w : Str}
    (h : hasEscTok (c :: w) = true) : hasEscTok w = true := by
  replace h : (erun ESt.e0 (c :: w) || hasEscTok w) = true := h
  rcases Bool.or_eq_true_iff.mp h with h1 | h1
  · rw [erun_cons _ _ _ (by simp),
      show estep ESt.e0 c = (if c = '&' then some ESt.e1 else none) from rfl,
      if_neg hc] at h1
    simp at h1
  · exact h1

theorem hasEscTok_peel_lt {w : Str} (h : hasEscTok ('<' :: w) = true) :
    hasEscTok w = true := by
  replace h : (erun ESt.e0 ('<' :: w) || hasEscTok w) = true := h
  rcases Bool.or_eq_true_iff.mp h with h1 | h1
  · rw [erun_lt_dead (by simp)] at h1
    simp at h1
  · exact h1

theorem boldSub_erun_pres (n : Nat) : ∀ (u : Str), u.length ≤ n →
    ∀ (st : ESt), erun st (boldSub u) = true → erun st u = true := by
  induction n with
  | zero =>
    intro u hu st h
    have : u = [] := List.eq_nil_of_length_eq_zero (Nat.le_zero.mp hu)
    subst this
    exact h
  | succ n ih =>
    intro u hu st h
    by_cases hacc : st = .eacc
    · subst hacc; exact erun_eacc u
    cases u with
    | nil => exact h
    | cons c cs =>
      simp only [List.length_cons] at hu
      by_cases hss : c = '*' ∧ cs.head? = some '*'
      · obtain ⟨hc, hh⟩ := hss
        subst hc
        obtain ⟨cs', rfl⟩ : ∃ cs', cs = '*' :: cs' := by
          cases cs with
          | nil => simp at hh
          | cons d ds =>
            simp only [List.head?_cons, Option.some.injEq] at hh
            exact ⟨ds, by rw [hh]⟩
        cases hm : boldFind cs' with
        | some pr =>
          obtain ⟨content, rest⟩ := pr
          rw [boldSub_bold hm] at h
          rw [show ("<b>".data : Str) = ['<', 'b', '>'] from rfl,
            show ("</b>".data : Str) = ['<', '/', 'b', '>'] from rfl] at h
          simp only [List.cons_append, List.nil_append, List.append_assoc] at h
          rw [erun_lt_dead hacc] at h
          simp at h
        | none =>
          rw [boldSub_nobold hm] at h
          rw [erun_cons _ _ _ hacc, estep_star] at h
          simp at h
      · rw [boldSub_cons hss] at h
        rw [erun_cons _ _ _ hacc] at h
        rw [erun_cons _ _ _ hacc]
        cases hst : estep st c with
        | some st' =>
          rw [hst] at h
          replace h : erun st' (boldSub cs) = true := h
          exact ih cs (by omega) st' h
        | none =>
          rw [hst] at h
          simp at h

theorem boldSub_hasEsc_pres (n : Nat) : ∀ (u : Str), u.length ≤ n →
    hasEscTok (boldSub u) = true → hasEscTok u = true := by
  induction n with
  | zero =>
    intro u hu h
    have : u = [] := List.eq_nil_of_length_eq_zero (Nat.le_zero.mp hu)
    subst this
    exact h
  | succ n ih =>
    intro u hu h
    cases u with
    | nil => exact h
    | cons c cs =>
      simp only [List.length_cons] at hu
      by_cases hss : c = '*' ∧ cs.head? = some '*'
      · obtain ⟨hc, hh⟩ := hss
        subst hc
        obtain ⟨cs', rfl⟩ : ∃ cs', cs = '*' :: cs' := by
          cases cs with
          | nil => simp at hh
          | cons d ds =>
            simp only [List.head?_cons, Option.some.injEq] at hh
            exact ⟨ds, by rw [hh]⟩
        simp only [List.length_cons] at hu
        cases hm : boldFind cs' with
        | some pr =>
          obtain ⟨content, rest⟩ := pr
          obtain ⟨hcne, hdecomp⟩ := boldFind_spec hm
          have hlen := boldFind_length hm
          rw [boldSub_bold hm] at h
          rw [show ("<b>".data : Str) = ['<', 'b', '>'] from rfl,
            show ("</b>".data : Str) = ['<', '/', 'b', '>'] from rfl] at h
          simp only [List.cons_append, List.nil_append, List.append_assoc] at h
          replace h := hasEscTok_peel_lt h
          replace h := hasEscTok_peel (by decide) h
          replace h := hasEscTok_peel (by decide) h
          rcases hasEscTok_split_lt content ('/' :: 'b' :: '>' :: boldSub rest) h
            with h1 | h1
          · show hasEscTok ('*' :: '*' :: cs') = true
            rw [hdecomp]
            exact hasEscTok_ext_left ['*', '*'] _
              (hasEscTok_ext_right content _ h1)
          · replace h1 := hasEscTok_peel_lt h1
            replace h1 := hasEscTok_peel (by decide) h1
            replace h1 := hasEscTok_peel (by decide) h1
            replace h1 := hasEscTok_peel (by decide) h1
            have h2 := ih rest (by omega) h1
            show hasEscTok ('*' :: '*' :: cs') = true
            rw [hdecomp]
            have h3 : hasEscTok ('*' :: '*' :: rest) = true := by
              show (erun ESt.e0 ('*' :: '*' :: rest)
                || hasEscTok ('*' :: rest)) = true
              have h4 : hasEscTok ('*' :: rest) = true := by
                show (erun ESt.e0 ('*' :: rest) || hasEscTok rest) = true
                rw [h2]
                simp
              rw [h4]
              simp
            exact hasEscTok_ext_left ['*', '*'] _
              (hasEscTok_ext_left content _ h3)
        | none =>
          rw [boldSub_nobold hm] at h
          replace h := hasEscTok_peel (by decide) h
          have h2 := ih ('*' :: cs') (by simp only [List.length_cons]; omega) h
          show (erun ESt.e0 ('*' :: '*' :: cs')
            || hasEscTok ('*' :: cs')) = true
          rw [h2]
          simp
      · rw [boldSub_cons hss] at h
        replace h : (erun ESt.e0 (c :: boldSub cs)
          || hasEscTok (boldSub cs)) = true := h
        rcases Bool.or_eq_true_iff.mp h with h1 | h1
        · by_cases hamp : c = '&'
          · subst hamp
            rw [erun_cons _ _ _ (by simp),
              show estep ESt.e0 '&' = some ESt.e1 from rfl] at h1
            replace h1 : erun ESt.e1 (boldSub cs) = true := h1
            have h2 := boldSub_erun_pres n cs (by omega) .e1 h1
            show (erun ESt.e0 ('&' :: cs) || hasEscTok cs) = true
            rw [erun_cons _ _ _ (by simp),
              show estep ESt.e0 '&' = some ESt.e1 from rfl]
            show ((erun ESt.e1 cs : Bool) || hasEscTok cs) = true
            rw [h2]
            simp
          · rw [erun_cons _ _ _ (by simp),
              show estep ESt.e0 c = (if c = '&' then some ESt.e1 else none)
                from rfl, if_neg hamp] at h1
            simp at h1
        · have h2 := ih cs (by omega) h1
          show (erun ESt.e0 (c :: cs) || hasEscTok cs) = true
          rw [h2]
          simp

theorem nlToBr_nl (cs : Str) :
    nlToBr ('\n' :: cs) = "<br/>".data ++ nlToBr cs := by
  show (if '\n' = '\n' then _ else _) = _
  rw [if_pos rfl]

theorem nlToBr_cons {c : Char} (cs : Str) (h : c ≠ '\n') :
    nlToBr (c :: cs) = c :: nlToBr cs := by
  show (if c = '\n' then _ else _) = _
  rw [if_neg h]

theorem nlToBr_erun_pres : ∀ (u : Str) (st : ESt),
    erun st (nlToBr u) = true → erun st u = true := by
  intro u
  induction u with
  | nil => intro st h; exact h
  | cons c cs ih =>
    intro st h
    by_cases hacc : st = .eacc
    · subst hacc; exact erun_eacc _
    by_cases hnl : c = '\n'
    · subst hnl
      rw [nlToBr_nl] at h
      rw [show ("<br/>".data : Str) = ['<', 'b', 'r', '/', '>'] from rfl] at h
      simp only [List.cons_append, List.nil_append] at h
      rw [erun_lt_dead hacc] at h
      simp at h
    · rw [nlToBr_cons _ hnl] at h
      rw [erun_cons _ _ _ hacc] at h
      rw [erun_cons _ _ _ hacc]
      cases hst : estep st c with
      | some st' =>
        rw [hst] at h
        replace h : erun st' (nlToBr cs) = true := h
        exact ih st' h
      | none =>
        rw [hst] at h
        simp at h

theorem nlToBr_hasEsc_pres : ∀ (u : Str),
    hasEscTok (nlToBr u) = true → hasEscTok u = true := by
  intro u
  induction u with
  | nil => intro h; exact h
  | cons c cs ih =>
    intro h
    by_cases hnl : c = '\n'
    · subst hnl
      rw [nlToBr_nl] at h
      rw [show ("<br/>".data : Str) = ['<', 'b', 'r', '/', '>'] from rfl] at h
      simp only [List.cons_append, List.nil_append] at h
      replace h := hasEscTok_peel_lt h
      replace h := hasEscTok_peel (by decide) h
      replace h := hasEscTok_peel (by decide) h
      replace h := hasEscTok_peel (by decide) h
      replace h := hasEscTok_peel (by decide) h
      have h2 := ih h
      show (erun ESt.e0 ('\n' :: cs) || hasEscTok cs) = true
      rw [h2]
      simp
    · rw [nlToBr_cons _ hnl] at h
      replace h : (erun ESt.e0 (c :: nlToBr cs)
        || hasEscTok (nlToBr cs)) = true := h
      rcases Bool.or_eq_true_iff.mp h with h1 | h1
      · by_cases hamp : c = '&'
        · subst hamp
          rw [erun_cons _ _ _ (by simp),
            show estep ESt.e0 '&' = some ESt.e1 from rfl] at h1
          replace h1 : erun ESt.e1 (nlToBr cs) = true := h1
          have h2 := nlToBr_erun_pres cs .e1 h1
          show (erun ESt.e0 ('&' :: cs) || hasEscTok cs) = true
          rw [erun_cons _ _ _ (by simp),
            show estep ESt.e0 '&' = some ESt.e1 from rfl]
          show ((erun ESt.e1 cs : Bool) || hasEscTok cs) = true
          rw [h2]
          simp
        · rw [erun_cons _ _ _ (by simp),
            show estep ESt.e0 c = (if c = '&' then some ESt.e1 else none)
              from rfl, if_neg hamp] at h1
          simp at h1
      · have h2 := ih h1
        show (erun ESt.e0 (c :: cs) || hasEscTok cs) = true
        rw [h2]
        simp

theorem nlToBr_no_nl : ∀ (u : Str), '\n' ∉ nlToBr u := by
  intro u
  induction u with
  | nil => simp [nlToBr]
  | cons c cs ih =>
    by_cases hnl : c = '\n'
    · subst hnl
      rw [nlToBr_nl]
      intro hmem
      rcases List.mem_append.mp hmem with h1 | h1
      · revert h1; decide
      · exact ih h1
    · rw [nlToBr_cons _ hnl]
      intro hmem
      rcases List.mem_cons.mp hmem with h1 | h1
      · exact hnl h1.symm
      · exact ih h1

/-- No escaped line-break token (`&lt;br&gt;`, `&lt;br/&gt;`, in any case
variant and with any internal non-newline whitespace) survives into the
output of `_inline_format`: the tokens were rewritten before escaping. -/
theorem inlineFormat_no_escaped_token (s : Str) :
    hasEscTok (inlineFormat s) = false := by
  by_contra hcon
  have h : hasEscTok (inlineFormat s) = true := by
    cases h2 : hasEscTok (inlineFormat s)
    · exact absurd h2 hcon
    · rfl
  unfold inlineFormat at h
  have h1 := nlToBr_hasEsc_pres _ h
  have h2 := boldSub_hasEsc_pres (htmlEscape (brSub s)).length _ le_rfl h1
  have h3 := hasEscTok_escape _ h2
  rw [brSub_noRawTok s.length s le_rfl] at h3
  exact absurd h3 (by simp)

/-- Decomposition of `_inline_format` output: every character belongs to a
plain character other than `&`, `<`, `>`, an escape entity emitted by
`html.escape`, or one of the three markup tags the formatter itself emits
(`<b>`, `</b>`, `<br/>`).  In particular every `&`, `<`, `>` of the input
text reaches the output only in escaped form. -/
inductive Atoms : Str → Prop
  | nil : Atoms []
  | plain (c : Char) {cs : Str} (h1 : c ≠ '&') (h2 : c ≠ '<') (h3 : c ≠ '>') :
      Atoms cs → Atoms (c :: cs)
  | amp {cs : Str} : Atoms cs → Atoms ('&' :: 'a' :: 'm' :: 'p' :: ';' :: cs)
  | lt {cs : Str} : Atoms cs → Atoms ('&' :: 'l' :: 't' :: ';' :: cs)
  | gt {cs : Str} : Atoms cs → Atoms ('&' :: 'g' :: 't' :: ';' :: cs)
  | tagB {cs : Str} : Atoms cs → Atoms ('<' :: 'b' :: '>' :: cs)
  | tagBclose {cs : Str} : Atoms cs → Atoms ('<' :: '/' :: 'b' :: '>' :: cs)
  | tagBr {cs : Str} : Atoms cs → Atoms ('<' :: 'b' :: 'r' :: '/' :: '>' :: cs)

theorem atoms_append : ∀ {xs : Str}, Atoms xs → ∀ {ys : Str}, Atoms ys →
    Atoms (xs ++ ys) := by
  intro xs h
  induction h with
  | nil => intro ys hy; exact hy
  | plain c h1 h2 h3 _ ih => intro ys hy; exact Atoms.plain c h1 h2 h3 (ih hy)
  | amp _ ih => intro ys hy; exact Atoms.amp (ih hy)
  | lt _ ih => intro ys hy; exact Atoms.lt (ih hy)
  | gt _ ih => intro ys hy; exact Atoms.gt (ih hy)
  | tagB _ ih => intro ys hy; exact Atoms.tagB (ih hy)
  | tagBclose _ ih => intro ys hy; exact Atoms.tagBclose (ih hy)
  | tagBr _ ih => intro ys hy; exact Atoms.tagBr (ih hy)

theorem atoms_escape : ∀ (t : Str), Atoms (htmlEscape t) := by
  intro t
  induction t with
  | nil => exact Atoms.nil
  | cons c t' ih =>
    show Atoms (escChar c ++ htmlEscape t')
    by_cases hamp : c = '&'
    · subst hamp; exact Atoms.amp ih
    by_cases hlt : c = '<'
    · subst hlt; exact Atoms.lt ih
    by_cases hgt : c = '>'
    · subst hgt; exact Atoms.gt ih
    · rw [escChar, if_neg hamp, if_neg hlt, if_neg hgt]
      exact Atoms.plain c hamp hlt hgt ih

theorem atoms_cons_inv {c : Char} {v : Str} (h : Atoms (c :: v))
    (hamp : c ≠ '&') (hlt : c ≠ '<') : c ≠ '>' ∧ Atoms v := by
  cases h with
  | plain _ h1 h2 h3 ha => exact ⟨h3, ha⟩
  | amp _ => exact absurd rfl hamp
  | lt _ => exact absurd rfl hamp
  | gt _ => exact absurd rfl hamp
  | tagB _ => exact absurd rfl hlt
  | tagBclose _ => exact absurd rfl hlt
  | tagBr _ => exact absurd rfl hlt

theorem prefix_split (p : Str) (hp : '*' ∉ p) : ∀ (xs ys cs : Str),
    p ++ cs = xs ++ '*' :: ys →
    ∃ xs5, xs = p ++ xs5 ∧ cs = xs5 ++ '*' :: ys := by
  induction p with
  | nil => intro xs ys cs heq; exact ⟨xs, rfl, heq⟩
  | cons a p' ih =>
    intro xs ys cs heq
    cases xs with
    | nil =>
      simp only [List.cons_append, List.nil_append, List.cons.injEq] at heq
      exact absurd (heq.1 ▸ List.mem_cons_self a p') (heq.1 ▸ hp)
    | cons x xs' =>
      simp only [List.cons_append, List.cons.injEq] at heq
      obtain ⟨rfl, heq2⟩ := heq
      obtain ⟨xs5, hxs, hcs⟩ := ih (fun hm => hp (List.mem_cons_of_mem _ hm))
        xs' ys cs heq2
      exact ⟨xs5, by rw [hxs, List.cons_append], hcs⟩

theorem atoms_split_star : ∀ {u : Str}, Atoms u → ∀ (xs ys : Str),
    u = xs ++ '*' :: ys → Atoms xs ∧ Atoms ('*' :: ys) := by
  intro u h
  induction h with
  | nil =>
    intro xs ys heq
    exact absurd heq.symm (by cases xs <;> simp)
  | plain c h1 h2 h3 ha ih =>
    intro xs ys heq
    cases xs with
    | nil =>
      simp only [List.nil_append, List.cons.injEq] at heq
      obtain ⟨rfl, rfl⟩ := heq
      exact ⟨Atoms.nil, Atoms.plain '*' (by decide) (by decide) (by decide) ha⟩
    | cons x xs' =>
      simp only [List.cons_append, List.cons.injEq] at heq
      obtain ⟨rfl, heq2⟩ := heq
      obtain ⟨hxs, hstar⟩ := ih xs' ys heq2
      exact ⟨Atoms.plain c h1 h2 h3 hxs, hstar⟩
  | amp ha ih =>
    intro xs ys heq
    obtain ⟨xs5, rfl, hcs⟩ := prefix_split ['&', 'a', 'm', 'p', ';']
      (by decide) xs ys _ heq
    obtain ⟨hxs, hstar⟩ := ih xs5 ys hcs
    exact ⟨Atoms.amp hxs, hstar⟩
  | lt ha ih =>
    intro xs ys heq
    obtain ⟨xs5, rfl, hcs⟩ := prefix_split ['&', 'l', 't', ';']
      (by decide) xs ys _ heq
    obtain ⟨hxs, hstar⟩ := ih xs5 ys hcs
    exact ⟨Atoms.lt hxs, hstar⟩
  | gt ha ih =>
    intro xs ys heq
    obtain ⟨xs5, rfl, hcs⟩ := prefix_split ['&', 'g', 't', ';']
      (by decide) xs ys _ heq
    obtain ⟨hxs, hstar⟩ := ih xs5 ys hcs
    exact ⟨Atoms.gt hxs, hstar⟩
  | tagB ha ih =>
    intro xs ys heq
    obtain ⟨xs5, rfl, hcs⟩ := prefix_split ['<', 'b', '>']
      (by decide) xs ys _ heq
    obtain ⟨hxs, hstar⟩ := ih xs5 ys hcs
    exact ⟨Atoms.tagB hxs, hstar⟩
  | tagBclose ha ih =>
    intro xs ys heq
    obtain ⟨xs5, rfl, hcs⟩ := prefix_split ['<', '/', 'b', '>']
      (by decide) xs ys _ heq
    obtain ⟨hxs, hstar⟩ := ih xs5 ys hcs
    exact ⟨Atoms.tagBclose hxs, hstar⟩
  | tagBr ha ih =>
    intro xs ys heq
    obtain ⟨xs5, rfl, hcs⟩ := prefix_split ['<', 'b', 'r', '/', '>']
      (by decide) xs ys _ heq
    obtain ⟨hxs, hstar⟩ := ih xs5 ys hcs
    exact ⟨Atoms.tagBr hxs, hstar⟩

theorem boldSub_cons_ne {c : Char} {cs : Str} (h : c ≠ '*') :
    boldSub (c :: cs) = c :: boldSub cs :=
  boldSub_cons (fun hc => h hc.1)

theorem atoms_boldSub (n : Nat) : ∀ (u : Str), u.length ≤ n → Atoms u →
    Atoms (boldSub u) := by
  induction n with
  | zero =>
    intro u hu _
    have : u = [] := List.eq_nil_of_length_eq_zero (Nat.le_zero.mp hu)
    subst this
    exact Atoms.nil
  | succ n ih =>
    intro u hu hat
    cases u with
    | nil => exact Atoms.nil
    | cons c cs =>
      simp only [List.length_cons] at hu
      by_cases hss : c = '*' ∧ cs.head? = some '*'
      · obtain ⟨rfl, hh⟩ := hss
        obtain ⟨cs', rfl⟩ : ∃ cs', cs = '*' :: cs' := by
          cases cs with
          | nil => simp at hh
          | cons d ds =>
            simp only [List.head?_cons, Option.some.injEq] at hh
            exact ⟨ds, by rw [hh]⟩
        simp only [List.length_cons] at hu
        have h1 := (atoms_cons_inv hat (by decide) (by decide)).2
        have h2 := (atoms_cons_inv h1 (by decide) (by decide)).2
        cases hm : boldFind cs' with
        | some pr =>
          obtain ⟨content, rest⟩ := pr
          obtain ⟨hcne, hdecomp⟩ := boldFind_spec hm
          have hlen := boldFind_length hm
          obtain ⟨hcont, hstar⟩ := atoms_split_star h2 content ('*' :: rest)
            (by rw [hdecomp])
          have hrest := (atoms_cons_inv
            ((atoms_cons_inv hstar (by decide) (by decide)).2)
            (by decide) (by decide)).2
          rw [boldSub_bold hm]
          rw [show ("<b>".data : Str) = ['<', 'b', '>'] from rfl,
            show ("</b>".data : Str) = ['<', '/', 'b', '>'] from rfl]
          simp only [List.cons_append, List.nil_append, List.append_assoc]
          exact Atoms.tagB (atoms_append hcont
            (Atoms.tagBclose (ih rest (by omega) hrest)))
        | none =>
          rw [boldSub_nobold hm]
          exact Atoms.plain '*' (by decide) (by decide) (by decide)
            (ih ('*' :: cs') (by simp only [List.length_cons]; omega) h1)
      · cases hat with
        | plain _ h1 h2 h3 ha =>
          rw [boldSub_cons hss]
          exact Atoms.plain c h1 h2 h3 (ih _ (by omega) ha)
        | amp ha =>
          rw [boldSub_cons_ne (by decide), boldSub_cons_ne (by decide),
            boldSub_cons_ne (by decide), boldSub_cons_ne (by decide),
            boldSub_cons_ne (by decide)]
          refine Atoms.amp (ih _ ?_ ha)
          simp only [List.length_cons] at hu
          omega
        | lt ha =>
          rw [boldSub_cons_ne (by decide), boldSub_cons_ne (by decide),
            boldSub_cons_ne (by decide), boldSub_cons_ne (by decide)]
          refine Atoms.lt (ih _ ?_ ha)
          simp only [List.length_cons] at hu
          omega
        | gt ha =>
          rw [boldSub_cons_ne (by decide), boldSub_cons_ne (by decide),
            boldSub_cons_ne (by decide), boldSub_cons_ne (by decide)]
          refine Atoms.gt (ih _ ?_ ha)
          simp only [List.length_cons] at hu
          omega
        | tagB ha =>
          rw [boldSub_cons_ne (by decide), boldSub_cons_ne (by decide),
            boldSub_cons_ne (by decide)]
          refine Atoms.tagB (ih _ ?_ ha)
          simp only [List.length_cons] at hu
          omega
        | tagBclose ha =>
          rw [boldSub_cons_ne (by decide), boldSub_cons_ne (by decide),
            boldSub_cons_ne (by decide), boldSub_cons_ne (by decide)]
          refine Atoms.tagBclose (ih _ ?_ ha)
          simp only [List.length_cons] at hu
          omega
        | tagBr ha =>
          rw [boldSub_cons_ne (by decide), boldSub_cons_ne (by decide),
            boldSub_cons_ne (by decide), boldSub_cons_ne (by decide),
            boldSub_cons_ne (by decide)]
          refine Atoms.tagBr (ih _ ?_ ha)
          simp only [List.length_cons] at hu
          omega

theorem atoms_nlToBr : ∀ {u : Str}, Atoms u → Atoms (nlToBr u) := by
  intro u h
  induction h with
  | nil => exact Atoms.nil
  | plain c h1 h2 h3 _ ih =>
    by_cases hnl : c = '\n'
    · subst hnl
      rw [nlToBr_nl]
      exact Atoms.tagBr ih
    · rw [nlToBr_cons _ hnl]
      exact Atoms.plain c h1 h2 h3 ih
  | amp _ ih =>
    rw [nlToBr_cons _ (by decide), nlToBr_cons _ (by decide),
      nlToBr_cons _ (by decide), nlToBr_cons _ (by decide),
      nlToBr_cons _ (by decide)]
    exact Atoms.amp ih
  | lt _ ih =>
    rw [nlToBr_cons _ (by decide), nlToBr_cons _ (by decide),
      nlToBr_cons _ (by decide), nlToBr_cons _ (by decide)]
    exact Atoms.lt ih
  | gt _ ih =>
    rw [nlToBr_cons _ (by decide), nlToBr_cons _ (by decide),
      nlToBr_cons _ (by decide), nlToBr_cons _ (by decide)]
    exact Atoms.gt ih
  | tagB _ ih =>
    rw [nlToBr_cons _ (by decide), nlToBr_cons _ (by decide),
      nlToBr_cons _ (by decide)]
    exact Atoms.tagB ih
  | tagBclose _ ih =>
    rw [nlToBr_cons _ (by decide), nlToBr_cons _ (by decide),
      nlToBr_cons _ (by decide), nlToBr_cons _ (by decide)]
    exact Atoms.tagBclose ih
  | tagBr _ ih =>
    rw [nlToBr_cons _ (by decide), nlToBr_cons _ (by decide),
      nlToBr_cons _ (by decide), nlToBr_cons _ (by decide),
      nlToBr_cons _ (by decide)]
    exact Atoms.tagBr ih

theorem inlineFormat_atoms (s : Str) : Atoms (inlineFormat s) :=
  atoms_nlToBr (atoms_boldSub (htmlEscape (brSub s)).length _ le_rfl
    (atoms_escape (brSub s)))

/-- C5: in `_inline_format` the literal line-break tokens are rewritten to
newlines before `html.escape` runs, so (a) the escaped token text
(`&lt;br&gt;`, `&lt;br/&gt;`, any case variant, any internal whitespace)
never appears in the output; (b) every character of the output lies in a
plain non-`&<>` character, an escape entity, or one of the emitted tags
`<b>`, `</b>`, `<br/>` — i.e. every `&`, `<`, `>` of the input appears
only in escaped form, and the only unescaped markup is the formatter's
own; and (c) the output contains no raw newline: every newline (and hence
every recognized line-break token) has become the `<br/>` element. -/
theorem claim_C5 (s : Str) :
    Atoms (inlineFormat s) ∧
    hasEscTok (inlineFormat s) = false ∧
    '\n' ∉ inlineFormat s :=
  ⟨inlineFormat_atoms s, inlineFormat_no_escaped_token s, nlToBr_no_nl _⟩

/- ------------------------------------------------------------------ -/
/- Claim C3: idempotence analysis of summary_markdown_to_pretty_txt   -/
/- ------------------------------------------------------------------ -/

theorem splitLinesAux_nl_cons (acc : Str) (c : Char) (cs : Str) :
    splitLinesAux acc ('\n' :: c :: cs) = acc.reverse :: splitLinesAux [] (c :: cs) := by
  show (if '\n' = '\n' then _ else _) = _
  rw [if_pos rfl]

theorem splitLinesAux_nl_nil (acc : Str) :
    splitLinesAux acc ['\n'] = [acc.reverse] := by
  show (if '\n' = '\n' then _ else _) = _
  rw [if_pos rfl]

theorem splitLinesAux_cons {c : Char} (acc : Str) (cs : Str) (h : c ≠ '\n') :
    splitLinesAux acc (c :: cs) = splitLinesAux (c :: acc) cs := by
  show (if c = '\n' then _ else _) = _
  rw [if_neg h]

theorem splitLinesAux_no_nl (l : Str) : ∀ (acc r : Str), '\n' ∉ l →
    splitLinesAux acc (l ++ r) = splitLinesAux (l.reverse ++ acc) r := by
  induction l with
  | nil => intro acc r _; simp
  | cons c l' ih =>
    intro acc r hnl
    have hc : c ≠ '\n' := fun h => hnl (h ▸ List.mem_cons_self c l')
    rw [List.cons_append, splitLinesAux_cons _ _ hc,
      ih (c :: acc) r (fun h => hnl (List.mem_cons_of_mem _ h))]
    congr 1
    simp

theorem intercalate_nl_cons (a : Str) (b : Str) (t : List Str) :
    List.intercalate ['\n'] (a :: b :: t) =
      a ++ '\n' :: List.intercalate ['\n'] (b :: t) := by
  simp [List.intercalate, List.intersperse]

theorem intercalate_nl_single (a : Str) :
    List.intercalate ['\n'] [a] = a := by
  simp [List.intercalate, List.intersperse]

theorem splitLines_ne_nil {s : Str} (h : s ≠ []) :
    splitLines s = splitLinesAux [] s := by
  cases s with
  | nil => exact absurd rfl h
  | cons c cs => rfl

/-- `splitlines` of a newline-join with a trailing newline recovers the
original lines (none of which may itself contain a newline). -/
theorem splitLines_join_nl : ∀ (ls : List Str), ls ≠ [] →
    (∀ l ∈ ls, '\n' ∉ l) →
    splitLines (List.intercalate ['\n'] ls ++ ['\n']) = ls := by
  intro ls
  induction ls with
  | nil => intro h; exact absurd rfl h
  | cons l ls' ih =>
    intro _ hnl
    cases ls' with
    | nil =>
      rw [intercalate_nl_single]
      cases l with
      | nil => rfl
      | cons c l0 =>
        show splitLinesAux [] ((c :: l0) ++ ['\n']) = [c :: l0]
        rw [splitLinesAux_no_nl (c :: l0) [] ['\n'] (hnl _ (by simp)),
          List.append_nil, splitLinesAux_nl_nil, List.reverse_reverse]
    | cons b t =>
      rw [intercalate_nl_cons]
      have hx : List.intercalate ['\n'] (b :: t) ++ ['\n'] ≠ [] := by
        intro h
        exact absurd (congrArg List.length h) (by simp)
      have hjoin : l ++ '\n' :: List.intercalate ['\n'] (b :: t) ++ ['\n'] =
          l ++ '\n' :: (List.intercalate ['\n'] (b :: t) ++ ['\n']) := by
        simp
      show splitLines (l ++ '\n' :: List.intercalate ['\n'] (b :: t) ++ ['\n']) = _
      rw [hjoin]
      have hlen : l ++ '\n' :: (List.intercalate ['\n'] (b :: t) ++ ['\n']) ≠ [] := by
        intro h
        exact absurd (congrArg List.length h) (by simp)
      obtain ⟨d, ds, hds⟩ := List.exists_cons_of_ne_nil hx
      rw [splitLines_ne_nil hlen]
      rw [splitLinesAux_no_nl l [] _ (hnl l (by simp)), List.append_nil, hds,
        splitLinesAux_nl_cons, List.reverse_reverse, ← hds]
      have := ih (by simp) (fun x hx2 => hnl x (List.mem_cons_of_mem _ hx2))
      show _ :: splitLinesAux [] (List.intercalate ['\n'] (b :: t) ++ ['\n']) = _
      congr 1
      rw [splitLines_ne_nil hx] at this
      exact this

/-- `splitlines` of a newline-join of nonempty lines recovers the lines. -/
theorem splitLines_join_nl_noTrail : ∀ (ls : List Str), ls ≠ [] →
    (∀ l ∈ ls, '\n' ∉ l) → (∀ l ∈ ls, l ≠ []) →
    splitLines (List.intercalate ['\n'] ls) = ls := by
  intro ls
  induction ls with
  | nil => intro h; exact absurd rfl h
  | cons l ls' ih =>
    intro _ hnl hne
    cases ls' with
    | nil =>
      rw [intercalate_nl_single]
      obtain ⟨c, l0, rfl⟩ := List.exists_cons_of_ne_nil (hne l (by simp))
      rw [splitLines_ne_nil (by simp)]
      have := splitLinesAux_no_nl (c :: l0) [] [] (hnl _ (by simp))
      rw [List.append_nil] at this
      rw [this, List.append_nil]
      show [(c :: l0).reverse.reverse] = [c :: l0]
      rw [List.reverse_reverse]
    | cons b t =>
      rw [intercalate_nl_cons]
      have hbx : List.intercalate ['\n'] (b :: t) ≠ [] := by
        obtain ⟨c, b0, rfl⟩ := List.exists_cons_of_ne_nil (hne b (by simp))
        cases t with
        | nil => rw [intercalate_nl_single]; simp
        | cons u v =>
          rw [intercalate_nl_cons]
          simp
      obtain ⟨d, ds, hds⟩ := List.exists_cons_of_ne_nil hbx
      have hlen : l ++ '\n' :: List.intercalate ['\n'] (b :: t) ≠ [] := by
        intro h
        exact absurd (congrArg List.length h) (by simp)
      rw [splitLines_ne_nil hlen]
      rw [splitLinesAux_no_nl l [] _ (hnl l (by simp)), List.append_nil, hds,
        splitLinesAux_nl_cons, List.reverse_reverse, ← hds]
      have := ih (by simp) (fun x hx2 => hnl x (List.mem_cons_of_mem _ hx2))
        (fun x hx2 => hne x (List.mem_cons_of_mem _ hx2))
      congr 1
      rw [splitLines_ne_nil hbx] at this
      exact this

theorem dropWhile_cons_neg {p : Char → Bool} {c : Char} (cs : Str)
    (h : p c = false) : (c :: cs).dropWhile p = c :: cs := by
  rw [List.dropWhile_cons, if_neg (by simp [h])]

theorem pyStrip_eq_self {l : Str}
    (hf : ∀ ch, l.head? = some ch → pyWs ch = false)
    (hb : ∀ ch, l.getLast? = some ch → pyWs ch = false) :
    pyStrip l = l := by
  unfold pyStrip
  have h1 : l.dropWhile pyWs = l := by
    cases l with
    | nil => rfl
    | cons c cs => exact dropWhile_cons_neg cs (hf c rfl)
  rw [h1]
  have h2 : l.reverse.dropWhile pyWs = l.reverse := by
    cases hr : l.reverse with
    | nil => rfl
    | cons c cs =>
      refine dropWhile_cons_neg cs (hb c ?_)
      rw [← List.head?_reverse, hr]
      rfl
  rw [h2, List.reverse_reverse]

theorem takeWhile_all {α : Type} {p : α → Bool} : ∀ {l : List α},
    (∀ x ∈ l, p x = true) → l.takeWhile p = l := by
  intro l
  induction l with
  | nil => intro _; rfl
  | cons c cs ih =>
    intro h
    rw [List.takeWhile_cons, if_pos (by simp [h c (by simp)])]
    rw [ih fun x hx => h x (by simp [hx])]

theorem dropWhile_all {α : Type} {p : α → Bool} : ∀ {l : List α},
    (∀ x ∈ l, p x = true) → l.dropWhile p = [] := by
  intro l
  induction l with
  | nil => intro _; rfl
  | cons c cs ih =>
    intro h
    rw [List.dropWhile_cons, if_pos (by simp [h c (by simp)])]
    exact ih fun x hx => h x (by simp [hx])

theorem replacePair_not_mem {a b : Char} : ∀ {l : Str}, a ∉ l →
    replacePair a b l = l := by
  intro l
  induction l with
  | nil => intro _; rfl
  | cons c cs ih =>
    intro h
    cases cs with
    | nil => rfl
    | cons d ds =>
      rw [replacePair, if_neg (by rintro ⟨rfl, -⟩; exact h (List.mem_cons_self _ _))]
      rw [ih (fun hm => h (List.mem_cons_of_mem _ hm))]

theorem stripEmph_no_markers {l : Str} (h1 : '*' ∉ l) (h2 : '_' ∉ l) :
    stripEmph l = l := by
  unfold stripEmph
  rw [replacePair_not_mem h1, replacePair_not_mem h2]

theorem splitPipeAux_no_pipe : ∀ {l : Str} (acc : Str), '|' ∉ l →
    splitPipeAux acc l = [acc.reverse ++ l] := by
  intro l
  induction l with
  | nil => intro acc _; simp [splitPipeAux]
  | cons c cs ih =>
    intro acc h
    rw [splitPipeAux, if_neg (by rintro rfl; exact h (List.mem_cons_self _ _))]
    rw [ih (c :: acc) (fun hm => h (List.mem_cons_of_mem _ hm))]
    simp

theorem splitPipe_no_pipe {l : Str} (h : '|' ∉ l) : splitPipe l = [l] := by
  unfold splitPipe
  rw [splitPipeAux_no_pipe [] h]
  rfl

theorem dropWhile_pipe_of_not_mem : ∀ {l : Str}, '|' ∉ l →
    l.dropWhile (· == '|') = l := by
  intro l hl
  cases l with
  | nil => rfl
  | cons x xs =>
    have hx : x ≠ '|' := fun he => hl (he ▸ List.mem_cons_self x xs)
    exact dropWhile_cons_neg xs (by simp [hx])

theorem stripPipes_wrap {c : Str} (h : '|' ∉ c) :
    stripPipes ('|' :: c ++ ['|']) = c := by
  unfold stripPipes
  cases c with
  | nil =>
    show ((('|' :: ([] : Str) ++ ['|']).dropWhile (· == '|')).reverse.dropWhile
      (· == '|')).reverse = []
    rfl
  | cons ch cs =>
    have hch : ch ≠ '|' := fun he => h (he ▸ List.mem_cons_self ch cs)
    have h1 : ('|' :: (ch :: cs) ++ ['|']).dropWhile (· == '|')
        = (ch :: cs) ++ ['|'] := by
      show (('|' :: ((ch :: cs) ++ ['|'])).dropWhile (· == '|')) = _
      rw [List.dropWhile_cons, if_pos (by simp)]
      rw [List.cons_append]
      exact dropWhile_cons_neg _ (by simp [hch])
    rw [h1]
    have hlast : ((ch :: cs) ++ ['|']).reverse = '|' :: (ch :: cs).reverse := by
      simp
    rw [hlast, List.dropWhile_cons, if_pos (by simp)]
    have h2 : (ch :: cs).reverse.dropWhile (· == '|') = (ch :: cs).reverse := by
      refine dropWhile_pipe_of_not_mem ?_
      intro hm
      exact h (List.mem_reverse.mp hm)
    rw [h2, List.reverse_reverse]

theorem parseRowLine_wrap {c : Str} (hpipe : '|' ∉ c)
    (hf : ∀ ch, c.head? = some ch → pyWs ch = false)
    (hb : ∀ ch, c.getLast? = some ch → pyWs ch = false) :
    parseRowLine ('|' :: c ++ ['|']) = [parseCell c] := by
  unfold parseRowLine
  have hstrip : pyStrip ('|' :: c ++ ['|']) = '|' :: c ++ ['|'] := by
    refine pyStrip_eq_self ?_ ?_
    · intro ch hch
      cases hch
      rfl
    · intro ch hch
      rw [List.getLast?_concat] at hch
      cases hch
      rfl
  rw [hstrip, stripPipes_wrap hpipe, splitPipe_no_pipe hpipe]
  rfl

theorem wrapAux_no_break (maxW : Nat) : ∀ (rest acc : Str) (accW : Nat),
    accW + dispWidth rest ≤ maxW → ¬ (acc = [] ∧ rest = []) →
    wrapAux maxW rest acc accW = [acc.reverse ++ rest] := by
  intro rest
  induction rest with
  | nil =>
    intro acc accW _ hne
    have hacc : acc ≠ [] := fun h => hne ⟨h, rfl⟩
    show (if acc.isEmpty then [] else [acc.reverse]) = [acc.reverse ++ []]
    rw [if_neg (by simpa using hacc)]
    simp
  | cons ch rest' ih =>
    intro acc accW hw hne
    have hch : charW ch ≥ 1 := by
      unfold charW
      split_ifs <;> omega
    have hdisp : dispWidth (ch :: rest') = charW ch + dispWidth rest' := by
      simp [dispWidth]
    show (if ¬ acc.isEmpty ∧ accW + charW ch > maxW then _ else _) = _
    rw [if_neg (by
      rintro ⟨_, hgt⟩
      omega)]
    rw [ih (ch :: acc) (accW + charW ch) (by omega) (by simp)]
    simp

theorem wrapText_single {maxW : Nat} {c : Str} (hd : dispWidth c ≤ maxW)
    (hs : pyStrip c = c) : wrapText maxW c = [c] := by
  unfold wrapText
  rw [hs]
  cases c with
  | nil => rfl
  | cons ch cs =>
    rw [if_neg (by simp)]
    rw [wrapAux_no_break maxW (ch :: cs) [] 0 (by simpa using hd) (by simp)]
    rfl

theorem dropWhile_ws_replicate (k : Nat) : ∀ (t : Str),
    (List.replicate k ' ' ++ t).dropWhile pyWs = t.dropWhile pyWs := by
  induction k with
  | zero => intro t; rfl
  | succ n ih =>
    intro t
    rw [List.replicate_succ, List.cons_append, List.dropWhile_cons,
      if_pos (by decide)]
    exact ih t

theorem pyStrip_spaces_pad (a b : Nat) (c : Str)
    (hf : ∀ ch, c.head? = some ch → pyWs ch = false)
    (hb : ∀ ch, c.getLast? = some ch → pyWs ch = false) :
    pyStrip (List.replicate a ' ' ++ c ++ List.replicate b ' ') = c := by
  unfold pyStrip
  rw [List.append_assoc, dropWhile_ws_replicate]
  cases c with
  | nil =>
    rw [List.nil_append]
    have hd : (List.replicate b ' ').dropWhile pyWs = [] := by
      refine dropWhile_all ?_
      intro x hx
      rw [List.eq_of_mem_replicate hx]
      rfl
    rw [hd]
    rfl
  | cons ch cs =>
    have h1 : ((ch :: cs) ++ List.replicate b ' ').dropWhile pyWs
        = (ch :: cs) ++ List.replicate b ' ' := by
      rw [List.cons_append]
      exact dropWhile_cons_neg _ (hf ch rfl)
    rw [h1]
    have h2 : ((ch :: cs) ++ List.replicate b ' ').reverse
        = List.replicate b ' ' ++ (ch :: cs).reverse := by
      rw [List.reverse_append, List.reverse_replicate]
    rw [h2, dropWhile_ws_replicate]
    have h3 : (ch :: cs).reverse.dropWhile pyWs = (ch :: cs).reverse := by
      cases hr : (ch :: cs).reverse with
      | nil => rfl
      | cons d ds =>
        refine dropWhile_cons_neg ds (hb d ?_)
        rw [← List.head?_reverse, hr]
        rfl
    rw [h3, List.reverse_reverse]

theorem isTableRow_wrap (c : Str) : isTableRow ('|' :: c ++ ['|']) = true := by
  have hstrip : pyStrip ('|' :: c ++ ['|']) = '|' :: c ++ ['|'] := by
    refine pyStrip_eq_self ?_ ?_
    · intro ch hch
      cases hch
      rfl
    · intro ch hch
      rw [List.getLast?_concat] at hch
      cases hch
      rfl
  unfold isTableRow
  rw [hstrip]
  rw [Bool.and_eq_true, Bool.and_eq_true]
  refine ⟨⟨?_, ?_⟩, ?_⟩
  · rw [decide_eq_true_eq]
    simp only [List.cons_append, List.length_cons, List.length_append,
      List.length_cons, List.length_nil]
    omega
  · rfl
  · rw [show ('|' :: c ++ ['|'] : Str) = ('|' :: c) ++ ['|'] from by simp,
      List.getLast?_concat]
    rfl

theorem getLast?_replicate_succ (n : Nat) (x : Char) :
    (List.replicate (n + 1) x).getLast? = some x := by
  rw [List.replicate_succ']
  exact List.getLast?_concat _

theorem isSepCell_dashes (k : Nat) :
    isSepCell (List.replicate (k + 2) '-') = true := by
  have hstrip : pyStrip (List.replicate (k + 2) '-')
      = List.replicate (k + 2) '-' := by
    refine pyStrip_eq_self ?_ ?_
    · intro ch hch
      rw [List.replicate_succ] at hch
      cases hch
      rfl
    · intro ch hch
      rw [getLast?_replicate_succ] at hch
      cases hch
      rfl
  have hhead : (List.replicate (k + 2) '-').head? = some '-' := by
    rw [List.replicate_succ]
    rfl
  unfold isSepCell
  rw [hstrip, if_neg (by rw [hhead]; simp)]
  unfold sepDashes
  have htake : (List.replicate (k + 2) '-').takeWhile (· == '-')
      = List.replicate (k + 2) '-' := by
    refine takeWhile_all ?_
    intro x hx
    rw [List.eq_of_mem_replicate hx]
    rfl
  have hdrop : (List.replicate (k + 2) '-').dropWhile (· == '-') = [] := by
    refine dropWhile_all ?_
    intro x hx
    rw [List.eq_of_mem_replicate hx]
    rfl
  rw [htake, hdrop]
  simp

theorem flatten_singletons {α β : Type} (f : α → β) : ∀ (l : List α),
    (l.map fun x => [f x]).flatten = l.map f := by
  intro l
  induction l with
  | nil => rfl
  | cons x xs ih => simp [ih]

theorem intercalate_single {α : Type} (sep : List α) (a : List α) :
    List.intercalate sep [a] = a := by
  simp [List.intercalate, List.intersperse]

theorem getLast?_append_cons : ∀ (xs : Str) (y : Char) (ys : Str),
    (xs ++ y :: ys).getLast? = (y :: ys).getLast? := by
  intro xs
  induction xs with
  | nil => intro y ys; rfl
  | cons a xs' ih =>
    intro y ys
    rw [List.cons_append]
    have hne : xs' ++ y :: ys ≠ [] := by
      intro h
      exact absurd (congrArg List.length h) (by simp)
    obtain ⟨d, ds, hds⟩ := List.exists_cons_of_ne_nil hne
    rw [hds, List.getLast?_cons_cons, ← hds, ih]

theorem pyStrip_ne_nil {l : Str} {x : Char} (hx : x ∈ l)
    (hws : pyWs x = false) : pyStrip l ≠ [] := by
  intro h
  unfold pyStrip at h
  have h2 : ((l.dropWhile pyWs).reverse.dropWhile pyWs) = [] := by
    cases h3 : (l.dropWhile pyWs).reverse.dropWhile pyWs with
    | nil => rfl
    | cons a as => rw [h3] at h; simp at h
  have h4 : ∀ y ∈ (l.dropWhile pyWs).reverse, pyWs y = true := by
    rw [List.dropWhile_eq_nil_iff] at h2
    intro y hy
    exact h2 y hy
  have h5 : x ∈ l.dropWhile pyWs := by
    have := List.takeWhile_append_dropWhile (p := pyWs) (l := l)
    rw [← this] at hx
    rcases List.mem_append.mp hx with h6 | h6
    · exact absurd (List.mem_takeWhile_imp h6) (by simp [hws])
    · exact h6
  exact absurd (h4 x (List.mem_reverse.mpr h5)) (by simp [hws])

theorem collapseBlanksAux_nonblank : ∀ (ls : List Str) (k : Nat),
    (∀ l ∈ ls, (pyStrip l).isEmpty = false) →
    collapseBlanksAux k ls = ls := by
  intro ls
  induction ls with
  | nil => intro k _; rfl
  | cons l rest ih =>
    intro k h
    rw [collapseBlanksAux, if_neg (by simp [h l (by simp)])]
    rw [ih 0 fun x hx => h x (by simp [hx])]

/-- The comparison method fixed by the claim: for each maximal run of
table-like lines, the parsed header cells followed by the body rows that
survive the separator-row drop (`rows[1:]` with a leading separator row
removed) — exactly the rows both renderers treat as content. -/
def tableStructsF : Nat → List Str → List (List (List Str))
  | _, [] => []
  | 0, _ => []
  | f + 1, line :: rest =>
    if isTableRow line then
      (match parseTableBlock (line :: rest) with
       | [] => []
       | header :: _ =>
         header :: tableDataRows (parseTableBlock (line :: rest)))
        :: tableStructsF f ((line :: rest).dropWhile isTableRow)
    else tableStructsF f rest

def tableStructs (s : Str) : List (List (List Str)) :=
  tableStructsF (splitLines s).length (splitLines s)

/-- One markdown pipe-table line holding a single cell. -/
def mdLine (c : Str) : Str := '|' :: c ++ ['|']

/-- A single-column markdown table: header line, separator line, one line
per body cell. -/
def mdLines (hdr sep : Str) (cells : List Str) : List Str :=
  mdLine hdr :: mdLine sep :: cells.map mdLine

/-- Neither edge character of a cell is whitespace, so `str.strip` leaves
the cell unchanged. -/
def edgeOk (c : Str) : Bool :=
  (match c.head? with | none => true | some ch => !pyWs ch)
    && (match c.getLast? with | none => true | some ch => !pyWs ch)

/-- A well-behaved single-column cell: no pipe (the cell separator), no
newline, no emphasis marker, no surrounding whitespace, and display width
within the renderer's default 48-column limit so the wrapper keeps it on
one physical line. -/
def OKCell (c : Str) : Prop :=
  '|' ∉ c ∧ '\n' ∉ c ∧ '*' ∉ c ∧ '_' ∉ c ∧ edgeOk c = true ∧ dispWidth c ≤ 48

instance OKCell.dec (c : Str) : Decidable (OKCell c) :=
  decidable_of_iff
    ('|' ∉ c ∧ '\n' ∉ c ∧ '*' ∉ c ∧ '_' ∉ c ∧ edgeOk c = true
      ∧ dispWidth c ≤ 48)
    Iff.rfl

/-- Column width the renderer computes for a one-column table. -/
def oneColWidth (hdr : Str) (cells : List Str) : Nat :=
  ((hdr :: cells).map dispWidth).foldl Nat.max 0

/-- Interior of a rendered one-column line: padding space, the padded
cell, padding space. -/
def oneColMid (W : Nat) (c : Str) : Str := ' ' :: padTo c W ++ [' ']

/-- A rendered one-column content line. -/
def oneColLine (W : Nat) (c : Str) : Str := mdLine (oneColMid W c)

/-- The rendered one-column separator line. -/
def oneColSep (W : Nat) : Str := mdLine (List.replicate (W + 2) '-')

/-- The full rendered one-column table. -/
def oneColRender (hdr : Str) (cells : List Str) : List Str :=
  oneColLine (oneColWidth hdr cells) hdr
    :: oneColSep (oneColWidth hdr cells)
    :: cells.map (oneColLine (oneColWidth hdr cells))

/-- C3 counterexample: on a two-column table the first pass renders the
separator line as `|---+---|`, whose single cell `---+---` is not a
separator cell on the second pass, so the second pass keeps it as a data
row — the parsed table structure (header plus surviving body rows) of the
twice-reflowed text differs from that of the once-reflowed text. -/
theorem claim_C3_cex :
    tableStructs (summaryMarkdownToPrettyTxt (summaryMarkdownToPrettyTxt
        "| a | b |\n| --- | --- |\n| c | d |".data))
      ≠ tableStructs (summaryMarkdownToPrettyTxt
        "| a | b |\n| --- | --- |\n| c | d |".data) := by decide

theorem parseRowLine_one {c : Str} (hpipe : '|' ∉ c) :
    parseRowLine ('|' :: c ++ ['|']) = [parseCell c] := by
  unfold parseRowLine
  have hstrip : pyStrip ('|' :: c ++ ['|']) = '|' :: c ++ ['|'] := by
    refine pyStrip_eq_self ?_ ?_
    · intro ch hch
      cases hch
      rfl
    · intro ch hch
      rw [List.getLast?_concat] at hch
      cases hch
      rfl
  rw [hstrip, stripPipes_wrap hpipe, splitPipe_no_pipe hpipe]
  rfl

theorem OKCell_strip {c : Str} (h : OKCell c) : pyStrip c = c := by
  obtain ⟨-, -, -, -, he, -⟩ := h
  rw [edgeOk, Bool.and_eq_true] at he
  refine pyStrip_eq_self ?_ ?_
  · intro ch hch
    have := he.1
    rw [hch] at this
    simpa using this
  · intro ch hch
    have := he.2
    rw [hch] at this
    simpa using this

theorem OKCell_parse {c : Str} (h : OKCell c) : parseCell c = c := by
  unfold parseCell
  rw [OKCell_strip h, stripEmph_no_markers h.2.2.1 h.2.2.2.1]

theorem pyStrip_dashes (k : Nat) :
    pyStrip (List.replicate (k + 2) '-') = List.replicate (k + 2) '-' := by
  refine pyStrip_eq_self ?_ ?_
  · intro ch hch
    rw [List.replicate_succ] at hch
    cases hch
    rfl
  · intro ch hch
    rw [getLast?_replicate_succ] at hch
    cases hch
    rfl

theorem parseCell_dashes (k : Nat) :
    parseCell (List.replicate (k + 2) '-') = List.replicate (k + 2) '-' := by
  unfold parseCell
  rw [pyStrip_dashes]
  refine stripEmph_no_markers ?_ ?_
  · intro hm
    exact absurd (List.eq_of_mem_replicate hm) (by decide)
  · intro hm
    exact absurd (List.eq_of_mem_replicate hm) (by decide)

theorem mdLine_head (c : Str) : (mdLine c).head? = some '|' := rfl

theorem mdLine_getLast (c : Str) : (mdLine c).getLast? = some '|' := by
  unfold mdLine
  rw [show ('|' :: c ++ ['|'] : Str) = ('|' :: c) ++ ['|'] from by simp]
  exact List.getLast?_concat _

theorem mdLine_ne_nil (c : Str) : mdLine c ≠ [] := by
  unfold mdLine
  simp

theorem mdLine_pipe_mem (c : Str) : '|' ∈ mdLine c := by
  unfold mdLine
  exact List.mem_cons_self _ _

theorem mdLine_no_nl {c : Str} (h : '\n' ∉ c) : '\n' ∉ mdLine c := by
  unfold mdLine
  intro hm
  rcases List.mem_cons.mp hm with hx | hx
  · exact absurd hx (by decide)
  · rcases List.mem_append.mp hx with hy | hy
    · exact h hy
    · rcases List.mem_singleton.mp hy with hz
      exact absurd hz (by decide)

theorem mdLine_isTableRow (c : Str) : isTableRow (mdLine c) = true :=
  isTableRow_wrap c

theorem intercalate_head_pipe : ∀ (ls : List Str), ls ≠ [] →
    (∀ l ∈ ls, l.head? = some '|') →
    (List.intercalate ['\n'] ls).head? = some '|' := by
  intro ls hne hh
  obtain ⟨l, rest, rfl⟩ := List.exists_cons_of_ne_nil hne
  have hl := hh l (by simp)
  have hlne : l ≠ [] := by
    intro h
    rw [h] at hl
    exact absurd hl (by simp)
  obtain ⟨c, l0, rfl⟩ := List.exists_cons_of_ne_nil hlne
  have hc : c = '|' := by
    have : some c = some '|' := hl
    exact Option.some.inj this
  subst hc
  cases rest with
  | nil => rw [intercalate_nl_single]; rfl
  | cons b t => rw [intercalate_nl_cons]; rfl

theorem intercalate_getLast_pipe : ∀ (ls : List Str), ls ≠ [] →
    (∀ l ∈ ls, l.getLast? = some '|') →
    (List.intercalate ['\n'] ls).getLast? = some '|' := by
  intro ls
  induction ls with
  | nil => intro h; exact absurd rfl h
  | cons l rest ih =>
    intro _ hh
    cases rest with
    | nil =>
      rw [intercalate_nl_single]
      exact hh l (by simp)
    | cons b t =>
      rw [intercalate_nl_cons]
      have hx : List.intercalate ['\n'] (b :: t) ≠ [] := by
        intro h
        have hb := hh b (by simp)
        have hbne : b ≠ [] := by
          intro h2
          rw [h2] at hb
          exact absurd hb (by simp)
        obtain ⟨c, b0, rfl⟩ := List.exists_cons_of_ne_nil hbne
        cases t with
        | nil => rw [intercalate_nl_single] at h; exact absurd h (by simp)
        | cons u v => rw [intercalate_nl_cons] at h; exact absurd h (by simp)
      obtain ⟨d, ds, hds⟩ := List.exists_cons_of_ne_nil hx
      rw [hds, getLast?_append_cons, List.getLast?_cons_cons, ← hds]
      exact ih (by simp) fun x hx2 => hh x (List.mem_cons_of_mem _ hx2)

theorem pyStrip_intercalate_pipes {ls : List Str} (hne : ls ≠ [])
    (hh : ∀ l ∈ ls, l.head? = some '|')
    (hl : ∀ l ∈ ls, l.getLast? = some '|') :
    pyStrip (List.intercalate ['\n'] ls) = List.intercalate ['\n'] ls := by
  refine pyStrip_eq_self ?_ ?_
  · intro ch hch
    rw [intercalate_head_pipe ls hne hh] at hch
    cases Option.some.inj hch
    rfl
  · intro ch hch
    rw [intercalate_getLast_pipe ls hne hl] at hch
    cases Option.some.inj hch
    rfl

theorem collapseBlanks_pipeLines {ls : List Str}
    (h : ∀ l ∈ ls, '|' ∈ l) : collapseBlanks ls = ls := by
  refine collapseBlanksAux_nonblank ls 0 ?_
  intro l hl
  have hne := pyStrip_ne_nil (h l hl) (by decide)
  cases hps : pyStrip l with
  | nil => exact absurd hps hne
  | cons a as => rfl

theorem prettyLines_allTable (tf : TableFormat) {ls : List Str}
    (h : ∀ l ∈ ls, isTableRow l = true) (hne : ls ≠ []) :
    prettyLines tf ls = formatTableTxt tf (parseTableBlock ls) := by
  obtain ⟨l, rest, rfl⟩ := List.exists_cons_of_ne_nil hne
  rw [prettyLines_table (h l (by simp))]
  rw [dropWhile_all h]
  show _ ++ ([] : List Str) = _
  exact List.append_nil _

theorem parseTableBlock_mdLines (hdr srow : Str) (cells : List Str)
    (hph : '|' ∉ hdr) (hps : '|' ∉ srow) (hpc : ∀ c ∈ cells, '|' ∉ c) :
    parseTableBlock (mdLines hdr srow cells)
      = [parseCell hdr] :: [parseCell srow]
          :: cells.map (fun c => [parseCell c]) := by
  unfold parseTableBlock
  rw [takeWhile_all (by
    intro x hx
    unfold mdLines at hx
    rcases List.mem_cons.mp hx with rfl | hx2
    · exact mdLine_isTableRow hdr
    · rcases List.mem_cons.mp hx2 with rfl | hx3
      · exact mdLine_isTableRow srow
      · obtain ⟨c, -, rfl⟩ := List.mem_map.mp hx3
        exact mdLine_isTableRow c)]
  unfold mdLines
  rw [List.map_cons, List.map_cons, List.map_map]
  rw [show parseRowLine (mdLine hdr) = [parseCell hdr] from parseRowLine_one hph]
  rw [show parseRowLine (mdLine srow) = [parseCell srow] from parseRowLine_one hps]
  congr 1
  congr 1
  refine List.map_congr_left ?_
  intro c hc
  exact parseRowLine_one (hpc c hc)

theorem normRow_one (x : Str) : normRow 1 [x] = [x] := by
  simp [normRow]

theorem range_one_eq : List.range 1 = [0] := rfl

theorem formatTableTxt_oneCol (hdr srow : Str) (cells : List Str)
    (hsep : isSepCell srow = true) (hcne : cells ≠ [])
    (hhs : pyStrip hdr = hdr) (hhw : dispWidth hdr ≤ 48)
    (hcs : ∀ c ∈ cells, pyStrip c = c) (hcw : ∀ c ∈ cells, dispWidth c ≤ 48) :
    formatTableTxt {} ([hdr] :: [srow] :: cells.map (fun c => [c]))
      = oneColRender hdr cells := by
  have hdata : tableDataRows ([hdr] :: [srow] :: cells.map (fun c => [c]))
      = cells.map (fun c => [c]) := by
    show (if isSepRow [srow] then _ else _) = _
    rw [if_pos (by simp [isSepRow, hsep])]
  have hncols : tableNcols [hdr] (cells.map (fun c => [c])) = 1 := by
    have := tableNcols_eq_header [hdr] (cells.map fun c => [c]) (by
      intro r hr
      obtain ⟨c, -, rfl⟩ := List.mem_map.mp hr
      simp)
    simpa using this
  have hWle : oneColWidth hdr cells ≤ 48 := by
    unfold oneColWidth
    refine foldl_max_le _ 0 48 (Nat.zero_le _) ?_
    intro x hx
    obtain ⟨y, hy, rfl⟩ := List.mem_map.mp hx
    rcases List.mem_cons.mp hy with rfl | hy2
    · exact hhw
    · exact hcw y hy2
  have h48 : ({} : TableFormat).maxColWidth = 48 := rfl
  have hpad1 : ({} : TableFormat).padding = 1 := rfl
  rw [formatTableTxt_cons {} [hdr] ([srow] :: cells.map (fun c => [c]))]
  rw [hdata, hncols, h48, hpad1]
  have hwh : (normRow 1 [hdr]).map (wrapText 48) = [[hdr]] := by
    rw [normRow_one, List.map_cons, List.map_nil, wrapText_single hhw hhs]
  have hwrows : ((cells.map (fun c => [c])).map (normRow 1)).map
      (fun r => r.map (wrapText 48)) = cells.map (fun c => [[c]]) := by
    rw [List.map_map, List.map_map]
    refine List.map_congr_left ?_
    intro c hc
    show (normRow 1 [c]).map (wrapText 48) = [[c]]
    rw [normRow_one, List.map_cons, List.map_nil,
      wrapText_single (hcw c hc) (hcs c hc)]
  rw [hwh, hwrows]
  have hcolmax : colMax [[hdr]] (cells.map fun c => [[c]]) 0
      = oneColWidth hdr cells := by
    have h1 : (cells.map fun c => ([[c]] : List (List Str))).map
        (fun r => ((r.getD 0 []).map dispWidth))
        = cells.map fun c => [dispWidth c] := by
      rw [List.map_map]
      rfl
    unfold colMax oneColWidth
    rw [h1, flatten_singletons]
    rfl
  have hwidths : colWidthsOf 48 [[hdr]] (cells.map fun c => [[c]]) 1
      = [oneColWidth hdr cells] := by
    unfold colWidthsOf
    rw [range_one_eq, List.map_cons, List.map_nil, hcolmax,
      Nat.min_eq_left hWle]
  rw [hwidths]
  have hrow : ∀ (x : Str), renderRowLines 1 [oneColWidth hdr cells] [[x]]
      = [oneColLine (oneColWidth hdr cells) x] := by
    intro x
    unfold renderRowLines
    have hh1 : rowHeight ([[x]] : List (List Str)) = 1 := rfl
    rw [hh1, range_one_eq, List.map_cons, List.map_nil]
    have hp : renderParts [oneColWidth hdr cells] [[x]] 0
        = [padTo x (oneColWidth hdr cells)] := rfl
    rw [hp, intercalate_single]
    unfold oneColLine oneColMid mdLine
    simp [List.replicate_one]
  have hsepline : tableSepLine 1 [oneColWidth hdr cells]
      = oneColSep (oneColWidth hdr cells) := by
    unfold tableSepLine oneColSep mdLine
    rw [List.map_cons, List.map_nil, intercalate_single]
    rw [show oneColWidth hdr cells + 2 * 1 = oneColWidth hdr cells + 2 from by
      omega]
    rfl
  rw [hrow hdr, hsepline]
  have hflat : ((cells.map fun c => [[c]]).map
      (renderRowLines 1 [oneColWidth hdr cells])).flatten
      = cells.map (oneColLine (oneColWidth hdr cells)) := by
    rw [List.map_map]
    have h2 : cells.map
        ((renderRowLines 1 [oneColWidth hdr cells]) ∘ fun c => [[c]])
        = cells.map fun c => [oneColLine (oneColWidth hdr cells) c] := by
      refine List.map_congr_left ?_
      intro c _
      exact hrow c
    rw [h2, flatten_singletons]
  rw [hflat]
  rfl

theorem oneColMid_mem {x : Char} {W : Nat} {c : Str}
    (hx : x ∈ oneColMid W c) : x = ' ' ∨ x ∈ c := by
  unfold oneColMid padTo at hx
  rcases List.mem_append.mp hx with h1 | h2
  · rcases List.mem_cons.mp h1 with rfl | h3
    · left; rfl
    · rcases List.mem_append.mp h3 with h4 | h5
      · right; exact h4
      · left; exact List.eq_of_mem_replicate h5
  · left; exact List.mem_singleton.mp h2

theorem oneColMid_no_pipe {W : Nat} {c : Str} (h : '|' ∉ c) :
    '|' ∉ oneColMid W c := by
  intro hm
  rcases oneColMid_mem hm with h1 | h1
  · exact absurd h1 (by decide)
  · exact h h1

theorem oneColMid_no_nl {W : Nat} {c : Str} (h : '\n' ∉ c) :
    '\n' ∉ oneColMid W c := by
  intro hm
  rcases oneColMid_mem hm with h1 | h1
  · exact absurd h1 (by decide)
  · exact h h1

theorem pyStrip_oneColMid (W : Nat) {c : Str} (hok : OKCell c) :
    pyStrip (oneColMid W c) = c := by
  have hshape : oneColMid W c
      = List.replicate 1 ' ' ++ c ++ List.replicate (W - dispWidth c + 1) ' ' := by
    unfold oneColMid padTo
    simp [List.replicate_succ']
  rw [hshape]
  obtain ⟨-, -, -, -, he, -⟩ := hok
  rw [edgeOk, Bool.and_eq_true] at he
  refine pyStrip_spaces_pad 1 (W - dispWidth c + 1) c ?_ ?_
  · intro ch hch
    have := he.1
    rw [hch] at this
    simpa using this
  · intro ch hch
    have := he.2
    rw [hch] at this
    simpa using this

theorem parseCell_oneColMid (W : Nat) {c : Str} (hok : OKCell c) :
    parseCell (oneColMid W c) = c := by
  unfold parseCell
  rw [pyStrip_oneColMid W hok,
    stripEmph_no_markers hok.2.2.1 hok.2.2.2.1]

theorem prettyPipeline_oneCol (hdrRaw srow : Str) (cellsRaw : List Str)
    (hdr : Str) (cells : List Str)
    (hpipeH : '|' ∉ hdrRaw) (hpipeS : '|' ∉ srow)
    (hpipeC : ∀ c ∈ cellsRaw, '|' ∉ c)
    (hph : parseCell hdrRaw = hdr)
    (hpc : cellsRaw.map parseCell = cells)
    (hsep : isSepCell (parseCell srow) = true)
    (hcne : cellsRaw ≠ [])
    (hhs : pyStrip hdr = hdr) (hhw : dispWidth hdr ≤ 48)
    (hcs : ∀ c ∈ cells, pyStrip c = c) (hcw : ∀ c ∈ cells, dispWidth c ≤ 48) :
    pyStrip (List.intercalate ['\n']
        (collapseBlanks (prettyLines {} (mdLines hdrRaw srow cellsRaw))))
      ++ ['\n']
      = List.intercalate ['\n'] (oneColRender hdr cells) ++ ['\n'] := by
  have htab : ∀ l ∈ mdLines hdrRaw srow cellsRaw, isTableRow l = true := by
    intro x hx
    unfold mdLines at hx
    rcases List.mem_cons.mp hx with rfl | hx2
    · exact mdLine_isTableRow hdrRaw
    · rcases List.mem_cons.mp hx2 with rfl | hx3
      · exact mdLine_isTableRow srow
      · obtain ⟨c, -, rfl⟩ := List.mem_map.mp hx3
        exact mdLine_isTableRow c
  rw [prettyLines_allTable {} htab (by unfold mdLines; simp)]
  rw [parseTableBlock_mdLines hdrRaw srow cellsRaw hpipeH hpipeS hpipeC]
  rw [hph]
  have hcellrw : cellsRaw.map (fun c => [parseCell c])
      = cells.map (fun c => [c]) := by
    rw [← hpc, List.map_map]
    rfl
  rw [hcellrw]
  have hcne2 : cells ≠ [] := by
    rw [← hpc]
    cases cellsRaw with
    | nil => exact absurd rfl hcne
    | cons a t => simp
  rw [formatTableTxt_oneCol hdr (parseCell srow) cells hsep hcne2 hhs hhw hcs hcw]
  have hpmem : ∀ l ∈ oneColRender hdr cells, '|' ∈ l := by
    intro l hl
    unfold oneColRender at hl
    rcases List.mem_cons.mp hl with rfl | hl2
    · exact mdLine_pipe_mem _
    · rcases List.mem_cons.mp hl2 with rfl | hl3
      · exact mdLine_pipe_mem _
      · obtain ⟨c, -, rfl⟩ := List.mem_map.mp hl3
        exact mdLine_pipe_mem _
  rw [collapseBlanks_pipeLines hpmem]
  rw [pyStrip_intercalate_pipes (by unfold oneColRender; simp)
    (by
      intro l hl
      unfold oneColRender at hl
      rcases List.mem_cons.mp hl with rfl | hl2
      · exact mdLine_head _
      · rcases List.mem_cons.mp hl2 with rfl | hl3
        · exact mdLine_head _
        · obtain ⟨c, -, rfl⟩ := List.mem_map.mp hl3
          exact mdLine_head _)
    (by
      intro l hl
      unfold oneColRender at hl
      rcases List.mem_cons.mp hl with rfl | hl2
      · exact mdLine_getLast _
      · rcases List.mem_cons.mp hl2 with rfl | hl3
        · exact mdLine_getLast _
        · obtain ⟨c, -, rfl⟩ := List.mem_map.mp hl3
          exact mdLine_getLast _)]

theorem summaryPretty_pass1 (hdr : Str) (cells : List Str) (m : Nat)
    (hh : OKCell hdr) (hc : ∀ c ∈ cells, OKCell c) (hcne : cells ≠ []) :
    summaryMarkdownToPrettyTxt
        (List.intercalate ['\n']
          (mdLines hdr (List.replicate (m + 2) '-') cells))
      = List.intercalate ['\n'] (oneColRender hdr cells) ++ ['\n'] := by
  unfold summaryMarkdownToPrettyTxt
  rw [splitLines_join_nl_noTrail
    (mdLines hdr (List.replicate (m + 2) '-') cells)
    (by unfold mdLines; simp)
    (by
      intro l hl
      unfold mdLines at hl
      rcases List.mem_cons.mp hl with rfl | hl2
      · exact mdLine_no_nl hh.2.1
      · rcases List.mem_cons.mp hl2 with rfl | hl3
        · refine mdLine_no_nl ?_
          intro hm
          exact absurd (List.eq_of_mem_replicate hm) (by decide)
        · obtain ⟨c, hcm, rfl⟩ := List.mem_map.mp hl3
          exact mdLine_no_nl (hc c hcm).2.1)
    (by
      intro l hl
      unfold mdLines at hl
      rcases List.mem_cons.mp hl with rfl | hl2
      · exact mdLine_ne_nil _
      · rcases List.mem_cons.mp hl2 with rfl | hl3
        · exact mdLine_ne_nil _
        · obtain ⟨c, -, rfl⟩ := List.mem_map.mp hl3
          exact mdLine_ne_nil _)]
  refine prettyPipeline_oneCol hdr (List.replicate (m + 2) '-') cells hdr cells
    hh.1
    (by
      intro hm
      exact absurd (List.eq_of_mem_replicate hm) (by decide))
    (fun c hcm => (hc c hcm).1)
    (OKCell_parse hh)
    (by
      have h1 : cells.map parseCell = cells.map id :=
        List.map_congr_left fun c hcm => OKCell_parse (hc c hcm)
      rw [h1, List.map_id])
    (by rw [parseCell_dashes]; exact isSepCell_dashes m)
    hcne
    (OKCell_strip hh) hh.2.2.2.2.2
    (fun c hcm => OKCell_strip (hc c hcm))
    (fun c hcm => (hc c hcm).2.2.2.2.2)

theorem summaryPretty_pass2 (hdr : Str) (cells : List Str)
    (hh : OKCell hdr) (hc : ∀ c ∈ cells, OKCell c) (hcne : cells ≠ []) :
    summaryMarkdownToPrettyTxt
        (List.intercalate ['\n'] (oneColRender hdr cells) ++ ['\n'])
      = List.intercalate ['\n'] (oneColRender hdr cells) ++ ['\n'] := by
  unfold summaryMarkdownToPrettyTxt
  rw [splitLines_join_nl (oneColRender hdr cells)
    (by unfold oneColRender; simp)
    (by
      intro l hl
      unfold oneColRender at hl
      rcases List.mem_cons.mp hl with rfl | hl2
      · exact mdLine_no_nl (oneColMid_no_nl hh.2.1)
      · rcases List.mem_cons.mp hl2 with rfl | hl3
        · refine mdLine_no_nl ?_
          intro hm
          exact absurd (List.eq_of_mem_replicate hm) (by decide)
        · obtain ⟨c, hcm, rfl⟩ := List.mem_map.mp hl3
          exact mdLine_no_nl (oneColMid_no_nl (hc c hcm).2.1))]
  have hshape : oneColRender hdr cells
      = mdLines (oneColMid (oneColWidth hdr cells) hdr)
          (List.replicate (oneColWidth hdr cells + 2) '-')
          (cells.map (oneColMid (oneColWidth hdr cells))) := by
    unfold oneColRender mdLines oneColLine oneColSep
    rw [List.map_map]
    rfl
  conv_lhs => rw [hshape]
  refine prettyPipeline_oneCol
    (oneColMid (oneColWidth hdr cells) hdr)
    (List.replicate (oneColWidth hdr cells + 2) '-')
    (cells.map (oneColMid (oneColWidth hdr cells)))
    hdr cells
    (oneColMid_no_pipe hh.1)
    (by
      intro hm
      exact absurd (List.eq_of_mem_replicate hm) (by decide))
    (by
      intro c hcm
      obtain ⟨c0, hc0, rfl⟩ := List.mem_map.mp hcm
      exact oneColMid_no_pipe (hc c0 hc0).1)
    (parseCell_oneColMid _ hh)
    (by
      rw [List.map_map]
      have h1 : cells.map (parseCell ∘ oneColMid (oneColWidth hdr cells))
          = cells.map id :=
        List.map_congr_left fun c hcm => parseCell_oneColMid _ (hc c hcm)
      rw [h1, List.map_id])
    (by rw [parseCell_dashes]; exact isSepCell_dashes _)
    (by
      cases cells with
      | nil => exact absurd rfl hcne
      | cons a t => simp)
    (OKCell_strip hh) hh.2.2.2.2.2
    (fun c hcm => OKCell_strip (hc c hcm))
    (fun c hcm => (hc c hcm).2.2.2.2.2)

/-- C3 (amended): `summary_markdown_to_pretty_txt` is not idempotent on
multi-column tables — its rendered separator line joins the column dashes
with `+`, which a second pass no longer recognises as a separator row and
keeps as a data row (see the counterexample).  For a single-column table
whose header and body cells contain no pipe, newline or emphasis marker,
carry no surrounding whitespace, and fit the default 48-column width, and
whose separator cell is a run of two or more dashes, a second application
returns the first application's output byte for byte — in particular the
parsed table structure of both outputs agrees. -/
theorem claim_C3_amended (hdr : Str) (cells : List Str) (m : Nat)
    (hh : OKCell hdr) (hc : ∀ c ∈ cells, OKCell c) (hcne : cells ≠ []) :
    summaryMarkdownToPrettyTxt (summaryMarkdownToPrettyTxt
        (List.intercalate ['\n']
          (mdLines hdr (List.replicate (m + 2) '-') cells)))
      = summaryMarkdownToPrettyTxt
          (List.intercalate ['\n']
            (mdLines hdr (List.replicate (m + 2) '-') cells)) := by
  rw [summaryPretty_pass1 hdr cells m hh hc hcne]
  exact summaryPretty_pass2 hdr cells hh hc hcne

/-- Witness for the amended C3 at a concrete one-column table. -/
theorem claim_C3_amended_witness :
    (OKCell "head".data ∧ (∀ c ∈ (["aa".data, "b".data] : List Str), OKCell c)
        ∧ (["aa".data, "b".data] : List Str) ≠ []) ∧
    summaryMarkdownToPrettyTxt (summaryMarkdownToPrettyTxt
        (List.intercalate ['\n']
          (mdLines "head".data (List.replicate (1 + 2) '-')
            ["aa".data, "b".data])))
      = summaryMarkdownToPrettyTxt
          (List.intercalate ['\n']
            (mdLines "head".data (List.replicate (1 + 2) '-')
              ["aa".data, "b".data])) :=
  ⟨⟨by decide, by decide, by decide⟩,
    claim_C3_amended "head".data ["aa".data, "b".data] 1
      (by decide) (by decide) (by decide)⟩
